import Mathlib

/-!
Verification of the label content formatting engine of the
custom-label-creator repository against its natural-language specification.

Strings are modelled as lists of characters (a JavaScript string is a
sequence of UTF-16 code units; every string handled by the engine is
processed character by character, so the list model is faithful).
JavaScript string truthiness (the empty string is falsy) is modelled with
List.isEmpty tests.

Sources embedded here:
- src/app.js: formatIngredientsWithBoldPresetNames (top-level splitter and
  bold formatter), stripBracketsFromIngredients, parseIngredients,
  collectAllIngredients, buildFormattedLabelText, buildFormattedLabelHtml,
  buildFullLabelText, escapeHtml, getPresetById.
- src/api/index.js: getPresetQuery (identifier resolver) and the
  GET /api/presets/search matcher.
-/

namespace CustomLabel

/-- Whitespace test used by the model for JavaScript trim and the regex
class backslash-s (the engine only meets ASCII whitespace). -/
def isWS (c : Char) : Bool := c == ' ' || c == '\t' || c == '\n' || c == '\r'

/-- Drop leading whitespace (left half of JavaScript String.prototype.trim). -/
def ltrim : List Char → List Char
  | [] => []
  | c :: r => if isWS c then ltrim r else c :: r

/-- Drop trailing whitespace (right half of JavaScript String.prototype.trim). -/
def rtrim : List Char → List Char
  | [] => []
  | c :: r =>
    match rtrim r with
    | [] => if isWS c then [] else [c]
    | r' => c :: r'

/-- JavaScript String.prototype.trim on the list-of-characters model. -/
def trim (l : List Char) : List Char := rtrim (ltrim l)

/-- Array.prototype.join with a separator string. -/
def joinSep (sep : List Char) : List (List Char) → List Char
  | [] => []
  | [t] => t
  | t :: t' :: ts => t ++ sep ++ joinSep sep (t' :: ts)

/-- One step of the parenthesis-depth counter of
formatIngredientsWithBoldPresetNames (src/app.js lines 568-570):
an opening parenthesis increments parenDepth, a closing one decrements it,
every other character leaves it unchanged. -/
def updDepth (d : Int) (c : Char) : Int :=
  if c = '(' then d + 1 else if c = ')' then d - 1 else d

/-- Parenthesis depth at the end of a character list, starting from d. -/
def depthOf (d : Int) : List Char → Int
  | [] => d
  | c :: r => depthOf (updDepth d c) r

/-- True when the running depth never becomes negative, starting from d. -/
def nonnegFrom (d : Int) : List Char → Bool
  | [] => true
  | c :: r => (decide (0 ≤ updDepth d c)) && nonnegFrom (updDepth d c) r

/-- True when no comma occurs at depth zero, tracking the depth from d.
This is the condition under which the splitter of src/app.js line 571
never fires inside the list. -/
def noSepFrom (d : Int) : List Char → Bool
  | [] => true
  | c :: r => if c = ',' ∧ updDepth d c = 0 then false else noSepFrom (updDepth d c) r

/-- Balanced parentheses: the running depth stays nonnegative and returns
to zero at the end. -/
def balancedParens (l : List Char) : Bool := nonnegFrom 0 l && (depthOf 0 l == 0)

/-- Loop of the top-level splitter in formatIngredientsWithBoldPresetNames
(src/app.js lines 564-578). cur is the current item accumulator and depth
the running parenthesis depth. On a comma at depth zero the trimmed
accumulator is pushed (even when empty); at the end of the input the
trimmed accumulator is pushed only when non-empty. -/
def splitAux (cur : List Char) (depth : Int) : List Char → List (List Char)
  | [] => if trim cur = [] then [] else [trim cur]
  | c :: rest =>
    let d := updDepth depth c
    if c = ',' ∧ d = 0 then trim cur :: splitAux [] d rest
    else splitAux (cur ++ [c]) d rest

/-- Parenthesis-aware top-level comma split (src/app.js lines 563-578),
the splitTopLevel operation of the specification. -/
def splitTopLevel (expr : List Char) : List (List Char) := splitAux [] 0 expr

/-- Expansion of a single character under browser HTML text-node
serialization: escapeHtml (src/app.js lines 1889-1893) assigns the text to
div.textContent and reads back div.innerHTML, which escapes the ampersand,
less-than and greater-than characters and leaves everything else alone. -/
def escChar (c : Char) : List Char :=
  if c = '&' then "&amp;".toList
  else if c = '<' then "&lt;".toList
  else if c = '>' then "&gt;".toList
  else [c]

/-- escapeHtml of src/app.js lines 1889-1893 on the list model. -/
def escapeHtml (l : List Char) : List Char := (l.map escChar).flatten

/-- Escapable characters of escapeHtml. -/
def isEscCh (c : Char) : Bool := c == '&' || c == '<' || c == '>'

/-- Per-item formatting step of formatIngredientsWithBoldPresetNames
(src/app.js lines 581-590): indexOf of the first opening parenthesis;
when it is positive, the trimmed prefix is escaped and wrapped in strong
tags and the rest of the item is appended verbatim after one space;
otherwise (no parenthesis, or a parenthesis at index zero, since the
JavaScript test is parenIndex greater than 0) the whole item is escaped
and wrapped. -/
def boldItem (part : List Char) : List Char :=
  match part.findIdx? (fun c => c = '(') with
  | some i =>
    if 0 < i then
      "<strong>".toList ++ escapeHtml (trim (part.take i)) ++ "</strong> ".toList ++ part.drop i
    else "<strong>".toList ++ escapeHtml part ++ "</strong>".toList
  | none => "<strong>".toList ++ escapeHtml part ++ "</strong>".toList

/-- formatIngredientsWithBoldPresetNames (src/app.js lines 560-593):
split at top level, bold each item, rejoin with a comma and a space. -/
def formatIngredientsWithBoldPresetNames (text : List Char) : List Char :=
  if text.isEmpty then []
  else joinSep ", ".toList ((splitTopLevel text).map boldItem)

/-- Collapse of every maximal whitespace run to one space: the
replace(backslash-s-plus, one space) step of stripBracketsFromIngredients
(src/app.js line 1885). The boolean records whether the previous character
was whitespace (in which case further whitespace is absorbed). -/
def collapseWS (prevWS : Bool) : List Char → List Char
  | [] => []
  | c :: r =>
    if isWS c then (if prevWS then collapseWS true r else ' ' :: collapseWS true r)
    else c :: collapseWS false r

/-- stripBracketsFromIngredients (src/app.js lines 1882-1886): collapse
whitespace runs to single spaces, then trim. -/
def stripBracketsFromIngredients (text : List Char) : List Char :=
  trim (collapseWS false text)

/-- JavaScript String.prototype.split on the comma character: always
returns at least one (possibly empty) field. -/
def splitComma : List Char → List (List Char)
  | [] => [[]]
  | c :: r =>
    match splitComma r with
    | [] => [[]]
    | h :: t => if c = ',' then [] :: h :: t else (c :: h) :: t

/-- parseIngredients (src/app.js lines 997-1005): empty or blank input
gives no ingredients; otherwise split on commas, trim each field and drop
the fields that are empty after trimming. -/
def parseIngredients (text : List Char) : List (List Char) :=
  if (trim text).isEmpty then []
  else ((splitComma text).map trim).filter (fun t => !t.isEmpty)

/-- An ingredient preset record ({ id, name, brandName?, ingredients }).
brandName is optional; a missing brandName field never matches the search
regex, which is modelled by none. -/
structure Preset where
  id : List Char
  name : List Char
  brandName : Option (List Char)
  ingredients : List (List Char)
deriving DecidableEq

/-- getPresetById (src/app.js lines 805-807): first preset whose id equals
the argument. -/
def getPresetById (presets : List Preset) (id : List Char) : Option Preset :=
  presets.find? (fun p => p.id == id)

/-- Loop body of collectAllIngredients (src/app.js lines 1197-1208): a
found preset pushes its sub-ingredients, or its own name when it has
none; an unknown id pushes nothing. -/
def collectStep (presets : List Preset) (acc : List (List Char))
    (pid : List Char) : List (List Char) :=
  match getPresetById presets pid with
  | some p => if p.ingredients.length > 0 then acc ++ p.ingredients else acc ++ [p.name]
  | none => acc

/-- collectAllIngredients (src/app.js lines 1192-1218): for each selected
preset id in selection order, the found preset contributes its
sub-ingredients, or its own name when it has none; then the trimmed
additional-ingredients text, when non-blank, contributes its parsed
comma-separated tokens. -/
def collectAllIngredients (presets : List Preset) (selectedIds : List (List Char))
    (additionalValue : List Char) : List (List Char) :=
  let allIngredients := selectedIds.foldl (collectStep presets) []
  let additionalText := trim additionalValue
  if !additionalText.isEmpty then allIngredients ++ parseIngredients additionalText
  else allIngredients

/-- Loop body of buildFormattedLabelText (src/app.js lines 1226-1238): a
found preset pushes "name (sub1, sub2, ...)" when it has sub-ingredients
and just "name" otherwise; an unknown id pushes nothing. -/
def exprStep (presets : List Preset) (acc : List (List Char))
    (pid : List Char) : List (List Char) :=
  match getPresetById presets pid with
  | some p =>
    if p.ingredients.length > 0 then
      acc ++ [p.name ++ " (".toList ++ joinSep ", ".toList p.ingredients ++ ")".toList]
    else acc ++ [p.name]
  | none => acc

/-- buildFormattedLabelText (src/app.js lines 1221-1248): for each selected
preset id in selection order, the found preset contributes the part
"name (sub1, sub2, ...)" when it has sub-ingredients and just "name"
otherwise; the parsed tokens of the trimmed additional text follow as
standalone parts; the parts are joined with a comma and a space. -/
def buildFormattedLabelText (presets : List Preset) (selectedIds : List (List Char))
    (additionalValue : List Char) : List Char :=
  let parts := selectedIds.foldl (exprStep presets) []
  let additionalText := trim additionalValue
  let parts := if !additionalText.isEmpty then parts ++ parseIngredients additionalText else parts
  joinSep ", ".toList parts

/-- Modelled from the claim wording (specification section 4.3): the
presets actually aggregated are the selected ids resolved in selection
order, skipping ids without a stored preset. -/
def selectedPresets (presets : List Preset) (selectedIds : List (List Char)) : List Preset :=
  selectedIds.filterMap (getPresetById presets)

/-- Modelled from the claim wording: the expression item contributed by
one preset. -/
def presetExprItem (p : Preset) : List Char :=
  if p.ingredients = [] then p.name
  else p.name ++ " (".toList ++ joinSep ", ".toList p.ingredients ++ ")".toList

/-- Modelled from the claim wording: the flat-list entries contributed by
one preset. -/
def presetFlatItems (p : Preset) : List (List Char) :=
  if p.ingredients = [] then [p.name] else p.ingredients

/-- Modelled from the claim wording: the trimmed non-empty comma-separated
tokens of the additional-ingredients text. -/
def additionalTokens (t : List Char) : List (List Char) :=
  ((splitComma t).map trim).filter (fun x => !x.isEmpty)

/-- Modelled from the claim wording: canonical expression of the
aggregation, selection order then additional-text order. -/
def aggregateExpr (sel : List Preset) (addl : List Char) : List Char :=
  joinSep ", ".toList (sel.map presetExprItem ++ additionalTokens addl)

/-- Modelled from the claim wording: flat ingredient list of the
aggregation, selection order then additional-text order. -/
def aggregateFlat (sel : List Preset) (addl : List Char) : List (List Char) :=
  (sel.map presetFlatItems).flatten ++ additionalTokens addl

/-- Result of identifier resolution (getPresetQuery, src/api/index.js
lines 372-383): either a primary-key lookup on the store-generated
ObjectId or a legacy lookup on the dedicated id attribute. -/
inductive LookupKey where
  | primaryKey (hex : List Char) : LookupKey
  | legacyId (id : List Char) : LookupKey
deriving DecidableEq

/-- Hexadecimal digit of either case (character class of
ObjectId.isValid, which accepts a 24-character string of digits and
letters a-f or A-F). -/
def isHexDigitCh (c : Char) : Bool :=
  (48 ≤ c.toNat && c.toNat ≤ 57) || (97 ≤ c.toNat && c.toNat ≤ 102) ||
    (65 ≤ c.toNat && c.toNat ≤ 70)

/-- ObjectId.isValid of the mongodb driver on string input: a 24-character
hexadecimal string of either case. -/
def objectIdIsValid (s : List Char) : Bool := s.length == 24 && s.all isHexDigitCh

/-- Lower-casing of a string, modelling both String.prototype.toLowerCase
and the canonical (lower-case) hexadecimal rendering of
ObjectId.prototype.toString on a valid hexadecimal input. -/
def lowerStr (l : List Char) : List Char := l.map Char.toLower

/-- Upper-casing of a string (String.prototype.toUpperCase on the ASCII
values the engine meets). -/
def upperStr (l : List Char) : List Char := l.map Char.toUpper

/-- getPresetQuery (src/api/index.js lines 372-383): when the identifier
is ObjectId-valid and the round trip new ObjectId(id).toString() returns
the identifier unchanged (that is, the identifier already is canonical
lower-case hexadecimal), look up by primary key; otherwise fall through to
the legacy id-attribute lookup. The try/catch of the source never fires on
the ObjectId-valid inputs reaching the constructor. -/
def getPresetQuery (id : List Char) : LookupKey :=
  if objectIdIsValid id && (lowerStr id == id) then .primaryKey id else .legacyId id

/-- Lower-case hexadecimal digit. -/
def isLowerHexDigitCh (c : Char) : Bool :=
  (48 ≤ c.toNat && c.toNat ≤ 57) || (97 ≤ c.toNat && c.toNat ≤ 102)

/-- Canonical store-generated identifier: 24 lower-case hexadecimal
characters. -/
def isCanonicalObjectId (s : List Char) : Bool :=
  s.length == 24 && s.all isLowerHexDigitCh

/-- Boolean prefix test on character lists. -/
def prefixB : List Char → List Char → Bool
  | [], _ => true
  | _ :: _, [] => false
  | c :: p, d :: h => c == d && prefixB p h

/-- Boolean substring test: some suffix of hay starts with pat. -/
def containsSub (hay pat : List Char) : Bool :=
  match hay with
  | [] => pat.isEmpty
  | _ :: t => prefixB pat hay || containsSub t pat

/-- Characters with special meaning in a JavaScript or Mongo regular
expression pattern: a pattern containing none of these is matched
literally by the regex engine. -/
def isRegexMeta (c : Char) : Bool :=
  c == '\\' || c == '^' || c == '$' || c == '.' || c == '|' || c == '?' ||
    c == '*' || c == '+' || c == '(' || c == ')' || c == '[' || c == ']' ||
    c == '\x7b' || c == '\x7d'

/-- Patterns on which the Mongo regex match is plain substring search:
those free of regex metacharacters. -/
def isLiteralPattern (pat : List Char) : Bool := pat.all (fun c => !isRegexMeta c)

/-- Case-insensitive substring containment: the meaning of the Mongo
regex { dollar-regex: pat, dollar-options: "i" } when pat is a literal
pattern, one free of regex metacharacters (isLiteralPattern). On
patterns containing metacharacters the regex engine applies its full
semantics (or rejects an ill-formed pattern), which this model does not
cover; every statement made about the search handler below is therefore
restricted to literal patterns. -/
def containsCI (hay pat : List Char) : Bool :=
  containsSub (lowerStr hay) (lowerStr pat)

/-- Search predicate of GET /api/presets/search (src/api/index.js lines
496-522): a blank query matches every preset; otherwise the trimmed query
is matched case-insensitively against the name, the brandName when the
field is present, and each element of the ingredients array (the Mongo
or-query over the three fields). This embeds the handler exactly on
queries whose trimmed form is free of regex metacharacters, where the
regex match is literal substring search; on other queries the handler
applies regex semantics (and an invalid pattern makes the request fail),
which is outside this embedding and outside the claims proved with it. -/
def presetMatches (p : Preset) (q : List Char) : Bool :=
  if (trim q).isEmpty then true
  else
    containsCI p.name (trim q) ||
    (match p.brandName with | some b => containsCI b (trim q) | none => false) ||
    p.ingredients.any (fun ing => containsCI ing (trim q))

/-- Concrete preset used by the specification examples:
{ name: "Spices", ingredients: ["Cinnamon"] }. -/
def spicesPreset : Preset :=
  { id := "p1".toList, name := "Spices".toList, brandName := none,
    ingredients := ["Cinnamon".toList] }

/-- Concrete preset used by the aggregation example of the specification:
{ name: "Spices", ingredients: ["Cinnamon", "Nutmeg"] }. -/
def spicesNutmegPreset : Preset :=
  { id := "p1".toList, name := "Spices".toList, brandName := none,
    ingredients := ["Cinnamon".toList, "Nutmeg".toList] }

/-- A label record with the fields read by the two renderers. Persisted
labels carry the canonical ingredient expression in text; the
label.ingredientsText fallback of buildFormattedLabelHtml is undefined on
label records (it only exists on the live-preview data object, which
passes the same expression under text), so it is absent here. -/
structure Label where
  name : List Char
  text : List Char
  allergens : List (List Char)
  allergenDetails : List Char
  businessName : List Char
  businessAddress : List Char
  businessCity : List Char
  businessState : List Char
  businessZip : List Char
  businessPhone : List Char
  netQuantity : List Char
  netQuantityUnit : List Char
  includeCottageDisclaimer : Bool
deriving DecidableEq

/-- Style fragment sectionMargin of buildFormattedLabelHtml. -/
def sectionMarginStr : List Char := "margin-bottom: 8px;".toList

/-- Style fragment fontFamily of buildFormattedLabelHtml. -/
def fontFamilyStr : List Char :=
  "font-family: 'Segoe UI', Tahoma, Geneva, Verdana, sans-serif;".toList

/-- Style fragment largeFontSize of buildFormattedLabelHtml. -/
def largeFontSizeStr : List Char := "font-size: 14pt;".toList

/-- Style fragment smallFontSize of buildFormattedLabelHtml. -/
def smallFontSizeStr : List Char := "font-size: 8pt;".toList

/-- Fixed cottage-food disclaimer sentence shared by both renderers. -/
def cottageDisclaimerText : List Char :=
  "MADE IN A COTTAGE FOOD OPERATION THAT IS NOT SUBJECT TO GOVERNMENT FOOD SAFETY INSPECTION".toList

/-- Product-name div of buildFormattedLabelHtml (src/app.js lines 497-499),
non-empty branch. -/
def divProduct (l : Label) : List Char :=
  "<div style=\"text-align: center; font-weight: 700; ".toList ++ largeFontSizeStr ++
    [' '] ++ sectionMarginStr ++ [' '] ++ fontFamilyStr ++ "\">".toList ++
    escapeHtml l.name ++ "</div>".toList

/-- Ingredients div of buildFormattedLabelHtml (src/app.js lines 503-508),
non-empty branch. -/
def divIngredients (l : Label) : List Char :=
  "<div style=\"text-align: center; line-height: 1.6; ".toList ++ sectionMarginStr ++
    [' '] ++ smallFontSizeStr ++ [' '] ++ fontFamilyStr ++
    "\"><span style=\"text-decoration: underline; font-weight: 700;\">Ingredients:</span> ".toList ++
    formatIngredientsWithBoldPresetNames (stripBracketsFromIngredients l.text) ++
    "</div>".toList

/-- Text content of the rich-markup allergen line (src/app.js lines
512-514): the allergens joined with a comma and a space, upper-cased,
escaped, after the fixed CONTAINS label; allergenDetails is not used. -/
def richAllergenText (l : Label) : List Char :=
  "CONTAINS: ".toList ++ escapeHtml (upperStr (joinSep ", ".toList l.allergens))

/-- Allergen div of buildFormattedLabelHtml (src/app.js lines 511-515),
non-empty branch. -/
def divAllergens (l : Label) : List Char :=
  "<div style=\"text-align: center; font-weight: 700; ".toList ++ sectionMarginStr ++
    [' '] ++ smallFontSizeStr ++ [' '] ++ fontFamilyStr ++ "\">".toList ++
    richAllergenText l ++ "</div>".toList

/-- Address string assembled by buildFormattedLabelHtml (src/app.js lines
520-536): business name, then the street address after a space (no comma),
then city, state and zip comma-joined with the empty parts dropped. -/
def businessAddressStr (l : Label) : List Char :=
  let addressStr := l.businessName ++
    (if l.businessAddress.isEmpty then [] else [' '] ++ l.businessAddress)
  let cityStateZip := joinSep ", ".toList
    (([l.businessCity, l.businessState, l.businessZip]).filter (fun p => !p.isEmpty))
  if cityStateZip.isEmpty then addressStr else addressStr ++ ", ".toList ++ cityStateZip

/-- Business div of buildFormattedLabelHtml (src/app.js lines 519-538),
non-empty branch. -/
def divBusiness (l : Label) : List Char :=
  "<div style=\"text-align: center; font-weight: 700; ".toList ++ smallFontSizeStr ++
    [' '] ++ sectionMarginStr ++ [' '] ++ fontFamilyStr ++ "\">".toList ++
    escapeHtml (businessAddressStr l) ++ "</div>".toList

/-- Net-quantity div of buildFormattedLabelHtml (src/app.js lines 541-544),
non-empty branch; the unit defaults to oz. -/
def divNet (l : Label) : List Char :=
  "<div style=\"text-align: center; font-weight: 700; ".toList ++ largeFontSizeStr ++
    [' '] ++ sectionMarginStr ++ [' '] ++ fontFamilyStr ++ "\">Net Wt. ".toList ++
    escapeHtml l.netQuantity ++ [' '] ++
    escapeHtml (if l.netQuantityUnit.isEmpty then "oz".toList else l.netQuantityUnit) ++
    "</div>".toList

/-- Cottage-disclaimer div of buildFormattedLabelHtml (src/app.js lines
547-550), non-empty branch. -/
def divCottage : List Char :=
  "<div style=\"text-align: center; font-weight: 700; ".toList ++ smallFontSizeStr ++
    " text-transform: uppercase; letter-spacing: 0.3px; ".toList ++ fontFamilyStr ++
    "\">".toList ++ cottageDisclaimerText ++ "</div>".toList

/-- Opening wrapper div of buildFormattedLabelHtml (src/app.js line 553). -/
def htmlWrapPrefix : List Char :=
  "<div style=\"background: #ffffff; padding: 24px; ".toList ++ fontFamilyStr ++
    " max-width: 500px; margin: 0 auto;\">".toList

/-- buildFormattedLabelHtml (src/app.js lines 482-556): the six optional
section divs, each emitted exactly when its backing field is non-empty
(respectively when the disclaimer flag is set), concatenated inside the
wrapper div. -/
def buildFormattedLabelHtml (l : Label) : List Char :=
  let productNameHtml := if l.name.isEmpty then [] else divProduct l
  let ingredientsHtml :=
    if (stripBracketsFromIngredients l.text).isEmpty then [] else divIngredients l
  let allergenHtml := if l.allergens.isEmpty then [] else divAllergens l
  let businessInfoHtml := if l.businessName.isEmpty then [] else divBusiness l
  let netQuantityHtml := if l.netQuantity.isEmpty then [] else divNet l
  let cottageHtml := if l.includeCottageDisclaimer then divCottage else []
  htmlWrapPrefix ++ productNameHtml ++ ingredientsHtml ++ allergenHtml ++
    businessInfoHtml ++ netQuantityHtml ++ cottageHtml ++ "</div>".toList

/-- Plain-text allergen line of buildFullLabelText (src/app.js lines
1839-1845): the allergens joined with a comma and a space (no
upper-casing), then the allergen details in parentheses when present,
after the fixed CONTAINS label. -/
def plainAllergenLine (l : Label) : List Char :=
  "CONTAINS: ".toList ++ joinSep ", ".toList l.allergens ++
    (if l.allergenDetails.isEmpty then []
     else " (".toList ++ l.allergenDetails ++ [')'])

/-- Plain-text business line of buildFullLabelText (src/app.js lines
1848-1862): name, street address, city, state, zip and phone comma-joined
with the empty parts dropped. -/
def businessPlainLine (l : Label) : List Char :=
  joinSep ", ".toList
    (([l.businessName, l.businessAddress, l.businessCity, l.businessState,
       l.businessZip, l.businessPhone]).filter (fun p => !p.isEmpty))

/-- Plain-text net-quantity line of buildFullLabelText (src/app.js lines
1864-1868); the unit defaults to oz. -/
def netPlainLine (l : Label) : List Char :=
  "Net Wt. ".toList ++ l.netQuantity ++ [' '] ++
    (if l.netQuantityUnit.isEmpty then "oz".toList else l.netQuantityUnit)

/-- buildFullLabelText (src/app.js lines 1824-1878): one line per present
section, in the fixed order name, ingredients, allergens, business,
net quantity, cottage disclaimer, joined with a single newline; field
values are inserted without escaping and without emphasis markers. The
business section is pushed under label.businessName and again guarded on
the joined address parts being non-empty, exactly as in the source. -/
def buildFullLabelText (l : Label) : List Char :=
  let cleanIngredients := stripBracketsFromIngredients l.text
  let lines : List (List Char) :=
    (if l.name.isEmpty then [] else [l.name]) ++
    (if cleanIngredients.isEmpty then []
     else ["Ingredients: ".toList ++ cleanIngredients]) ++
    (if l.allergens.isEmpty then [] else [plainAllergenLine l]) ++
    (if l.businessName.isEmpty then []
     else if (businessPlainLine l).isEmpty then [] else [businessPlainLine l]) ++
    (if l.netQuantity.isEmpty then [] else [netPlainLine l]) ++
    (if l.includeCottageDisclaimer then [cottageDisclaimerText] else [])
  joinSep ['\n'] lines

/-- Label sections shared by the two renderers, in their fixed order. -/
inductive LabelSection where
  | productName : LabelSection
  | ingredientsLine : LabelSection
  | allergenLine : LabelSection
  | businessLine : LabelSection
  | netQuantityLine : LabelSection
  | cottageLine : LabelSection
deriving DecidableEq

/-- The fixed section order of both renderers. -/
def allSections : List LabelSection :=
  [.productName, .ingredientsLine, .allergenLine, .businessLine,
   .netQuantityLine, .cottageLine]

/-- Presence condition of each section, shared by both renderers: a
section appears exactly when its backing field is non-empty (respectively
when the disclaimer flag is set). -/
def sectionPresent (l : Label) : LabelSection → Bool
  | .productName => !l.name.isEmpty
  | .ingredientsLine => !(stripBracketsFromIngredients l.text).isEmpty
  | .allergenLine => !l.allergens.isEmpty
  | .businessLine => !l.businessName.isEmpty
  | .netQuantityLine => !l.netQuantity.isEmpty
  | .cottageLine => l.includeCottageDisclaimer

/-- Plain-text line of each section. -/
def plainLine (l : Label) : LabelSection → List Char
  | .productName => l.name
  | .ingredientsLine => "Ingredients: ".toList ++ stripBracketsFromIngredients l.text
  | .allergenLine => plainAllergenLine l
  | .businessLine => businessPlainLine l
  | .netQuantityLine => netPlainLine l
  | .cottageLine => cottageDisclaimerText

/-- Rich-markup div of each section. -/
def htmlSectionBody (l : Label) : LabelSection → List Char
  | .productName => divProduct l
  | .ingredientsLine => divIngredients l
  | .allergenLine => divAllergens l
  | .businessLine => divBusiness l
  | .netQuantityLine => divNet l
  | .cottageLine => divCottage

/-- The three rendered representations of one label. -/
structure Rendered where
  storageText : List Char
  richMarkup : List Char
  plainText : List Char
deriving DecidableEq

/-- The full rendering of a label: canonical storage text (the normalized
ingredient expression), rich markup and plain clipboard text. -/
def renderLabel (l : Label) : Rendered :=
  { storageText := stripBracketsFromIngredients l.text
    richMarkup := buildFormattedLabelHtml l
    plainText := buildFullLabelText l }

/-- Concrete label used to evaluate the renderer theorems. -/
def sampleLabel : Label :=
  { name := "Cookies".toList
    text := "Spices (Cinnamon, Nutmeg), Butter".toList
    allergens := ["Milk".toList]
    allergenDetails := []
    businessName := "Acme Foods".toList
    businessAddress := "1 Main St".toList
    businessCity := "Springfield".toList
    businessState := "CA".toList
    businessZip := "90210".toList
    businessPhone := []
    netQuantity := "8".toList
    netQuantityUnit := "oz".toList
    includeCottageDisclaimer := true }

/-- Modifies the last element of a list of strings (helper for describing
how appending text to a string acts on its comma split). -/
def modifyLast (f : List Char → List Char) : List (List Char) → List (List Char)
  | [] => []
  | [x] => [f x]
  | x :: y :: ys => x :: modifyLast f (y :: ys)

/-- Number of characters satisfying p. -/
def countB (p : Char → Bool) : List Char → Nat
  | [] => 0
  | c :: r => (if p c then 1 else 0) + countB p r

/-- Whitespace canonical form: every whitespace character is a plain
space. -/
def allWSisSpace (l : List Char) : Bool := l.all (fun c => !isWS c || c == ' ')

/-- No two adjacent whitespace characters. -/
def noAdjWS : List Char → Bool
  | c :: c' :: r => (!(isWS c && isWS c')) && noAdjWS (c' :: r)
  | _ => true

/-! Lemmas about trimming and whitespace. -/

lemma isWS_cases {c : Char} (h : isWS c = true) :
    c = ' ' ∨ c = '\t' ∨ c = '\n' ∨ c = '\r' := by
  simp only [isWS, Bool.or_eq_true, beq_iff_eq] at h
  tauto

lemma updDepth_ws {d : Int} {c : Char} (h : isWS c = true) : updDepth d c = d := by
  have h1 : c ≠ '(' := by
    rcases isWS_cases h with h' | h' | h' | h' <;> subst h' <;> decide
  have h2 : c ≠ ')' := by
    rcases isWS_cases h with h' | h' | h' | h' <;> subst h' <;> decide
  simp [updDepth, h1, h2]

lemma ws_ne_comma {c : Char} (h : isWS c = true) : c ≠ ',' := by
  rcases isWS_cases h with h' | h' | h' | h' <;> subst h' <;> decide

lemma ltrim_cons_ws {c : Char} {l : List Char} (h : isWS c = true) :
    ltrim (c :: l) = ltrim l := by
  simp [ltrim, h]

lemma ltrim_cons_not_ws {c : Char} {l : List Char} (h : isWS c = false) :
    ltrim (c :: l) = c :: l := by
  simp [ltrim, h]

lemma trim_cons_ws {c : Char} {l : List Char} (h : isWS c = true) :
    trim (c :: l) = trim l := by
  simp [trim, ltrim_cons_ws h]

lemma trim_ws_append {ws l : List Char} (h : ws.all isWS = true) :
    trim (ws ++ l) = trim l := by
  induction ws with
  | nil => rfl
  | cons c r ih =>
    simp only [List.all_cons, Bool.and_eq_true] at h
    rw [List.cons_append, trim_cons_ws h.1, ih h.2]

lemma ltrim_nil_of_ws {ws : List Char} (h : ws.all isWS = true) : ltrim ws = [] := by
  induction ws with
  | nil => rfl
  | cons c r ih =>
    simp only [List.all_cons, Bool.and_eq_true] at h
    rw [ltrim_cons_ws h.1, ih h.2]

lemma rtrim_nil_of_ws {ws : List Char} (h : ws.all isWS = true) : rtrim ws = [] := by
  induction ws with
  | nil => rfl
  | cons c r ih =>
    simp only [List.all_cons, Bool.and_eq_true] at h
    simp [rtrim, ih h.2, h.1]

lemma trim_nil_of_ws {ws : List Char} (h : ws.all isWS = true) : trim ws = [] := by
  rw [trim, ltrim_nil_of_ws h]
  rfl

lemma rtrim_cons (c : Char) (l : List Char) :
    rtrim (c :: l) = match rtrim l with
      | [] => if isWS c = true then [] else [c]
      | x :: xs => c :: x :: xs := by
  cases h : rtrim l <;> simp [rtrim, h]

lemma rtrim_append_ws {l ws : List Char} (h : ws.all isWS = true) :
    rtrim (l ++ ws) = rtrim l := by
  induction l with
  | nil => simpa using rtrim_nil_of_ws h
  | cons c r ih => rw [List.cons_append, rtrim_cons, rtrim_cons, ih]

lemma ltrim_append_cases (a b : List Char) :
    ltrim (a ++ b) = ltrim a ++ b ∨ (ltrim a = [] ∧ ltrim (a ++ b) = ltrim b) := by
  induction a with
  | nil => exact Or.inr ⟨rfl, rfl⟩
  | cons c r ih =>
    by_cases h : isWS c
    · rw [List.cons_append, ltrim_cons_ws h, ltrim_cons_ws h]
      exact ih
    · rw [List.cons_append, ltrim_cons_not_ws (by simpa using h),
        ltrim_cons_not_ws (by simpa using h)]
      exact Or.inl (by simp)

lemma trim_append_ws {l ws : List Char} (h : ws.all isWS = true) :
    trim (l ++ ws) = trim l := by
  rcases ltrim_append_cases l ws with h' | ⟨h1, h2⟩
  · rw [trim, h', rtrim_append_ws h]
    rfl
  · rw [trim, h2, ltrim_nil_of_ws h, trim, h1]

lemma ltrim_decomp (l : List Char) :
    ∃ ws, ws.all isWS = true ∧ l = ws ++ ltrim l := by
  induction l with
  | nil => exact ⟨[], rfl, rfl⟩
  | cons c r ih =>
    by_cases h : isWS c
    · obtain ⟨ws, hws, hr⟩ := ih
      refine ⟨c :: ws, ?_, ?_⟩
      · simp [hws, h]
      · rw [ltrim_cons_ws h, List.cons_append, ← hr]
    · exact ⟨[], rfl, by rw [ltrim_cons_not_ws (by simpa using h)]; rfl⟩

lemma rtrim_decomp (l : List Char) :
    ∃ ws, ws.all isWS = true ∧ l = rtrim l ++ ws := by
  induction l with
  | nil => exact ⟨[], rfl, rfl⟩
  | cons c r ih =>
    obtain ⟨ws, hws, hr⟩ := ih
    cases hrt : rtrim r with
    | nil =>
      rw [hrt] at hr
      by_cases h : isWS c
      · refine ⟨c :: ws, by simp [hws, h], ?_⟩
        simp only [rtrim, hrt, if_pos h]
        simpa using hr
      · refine ⟨ws, hws, ?_⟩
        simp only [rtrim, hrt, if_neg h]
        simpa using hr
    | cons x xs =>
      refine ⟨ws, hws, ?_⟩
      simp only [rtrim, hrt]
      rw [hrt] at hr
      simpa using hr

lemma trim_decomp (l : List Char) :
    ∃ ws1 ws2, ws1.all isWS = true ∧ ws2.all isWS = true ∧
      l = ws1 ++ trim l ++ ws2 := by
  obtain ⟨ws1, hws1, h1⟩ := ltrim_decomp l
  obtain ⟨ws2, hws2, h2⟩ := rtrim_decomp (ltrim l)
  exact ⟨ws1, ws2, hws1, hws2, by rw [trim, List.append_assoc, ← h2, ← h1]⟩

lemma ltrim_head_not_ws (l : List Char) :
    ltrim l = [] ∨ ∃ c r, ltrim l = c :: r ∧ isWS c = false := by
  induction l with
  | nil => exact Or.inl rfl
  | cons c r ih =>
    by_cases h : isWS c
    · rw [ltrim_cons_ws h]; exact ih
    · rw [ltrim_cons_not_ws (by simpa using h)]
      exact Or.inr ⟨c, r, rfl, by simpa using h⟩

lemma rtrim_cons_not_ws {c : Char} {l : List Char} (h : isWS c = false) :
    ∃ r, rtrim (c :: l) = c :: r := by
  cases hrt : rtrim l with
  | nil => exact ⟨[], by simp [rtrim, hrt, h]⟩
  | cons x xs => exact ⟨x :: xs, by simp [rtrim, hrt]⟩

lemma rtrim_idem (l : List Char) : rtrim (rtrim l) = rtrim l := by
  induction l with
  | nil => rfl
  | cons c r ih =>
    rw [rtrim_cons]
    cases hrt : rtrim r with
    | nil =>
      by_cases h : isWS c
      · simp [h]
        rfl
      · simp [h, rtrim_cons]
        rfl
    | cons x xs =>
      have hx : rtrim (x :: xs) = x :: xs := by rw [← hrt, ih, hrt]
      simp only [rtrim_cons, hx]

lemma trim_idem (l : List Char) : trim (trim l) = trim l := by
  rcases ltrim_head_not_ws l with h | ⟨c, r, h, hc⟩
  · have h1 : trim l = [] := by
      simp only [trim, h]
      rfl
    rw [h1]
    rfl
  · have h1 : trim l = rtrim (c :: r) := by
      simp only [trim, h]
    obtain ⟨r', hr'⟩ := rtrim_cons_not_ws hc
    rw [h1, hr', trim, ltrim_cons_not_ws hc, ← hr', rtrim_idem]

/-! Lemmas about the parenthesis-aware splitter. -/

lemma updDepth_comma (d : Int) : updDepth d ',' = d := by
  have h1 : (',' : Char) ≠ '(' := by decide
  have h2 : (',' : Char) ≠ ')' := by decide
  simp [updDepth, h1, h2]

lemma depthOf_append (d : Int) (a b : List Char) :
    depthOf d (a ++ b) = depthOf (depthOf d a) b := by
  induction a generalizing d with
  | nil => rfl
  | cons c r ih => exact ih (updDepth d c)

lemma noSepFrom_append (d : Int) (a b : List Char) :
    noSepFrom d (a ++ b) = (noSepFrom d a && noSepFrom (depthOf d a) b) := by
  induction a generalizing d with
  | nil => simp [noSepFrom, depthOf]
  | cons c r ih =>
    by_cases h : c = ',' ∧ updDepth d c = 0
    · obtain ⟨h1, h2⟩ := h
      subst h1
      show (if (',' : Char) = ',' ∧ updDepth d ',' = 0 then false
          else noSepFrom (updDepth d ',') (r ++ b)) =
        ((if (',' : Char) = ',' ∧ updDepth d ',' = 0 then false
          else noSepFrom (updDepth d ',') r) && _)
      rw [if_pos ⟨rfl, h2⟩, if_pos ⟨rfl, h2⟩]
      simp
    · show (if c = ',' ∧ updDepth d c = 0 then false
          else noSepFrom (updDepth d c) (r ++ b)) =
        ((if c = ',' ∧ updDepth d c = 0 then false
          else noSepFrom (updDepth d c) r) && _)
      rw [if_neg h, if_neg h]
      exact ih (updDepth d c)

lemma depthOf_ws {d : Int} {ws : List Char} (h : ws.all isWS = true) :
    depthOf d ws = d := by
  induction ws with
  | nil => rfl
  | cons c r ih =>
    simp only [List.all_cons, Bool.and_eq_true] at h
    simp only [depthOf, updDepth_ws h.1, ih h.2]

lemma noSepFrom_ws {d : Int} {ws : List Char} (h : ws.all isWS = true) :
    noSepFrom d ws = true := by
  induction ws with
  | nil => rfl
  | cons c r ih =>
    simp only [List.all_cons, Bool.and_eq_true] at h
    simp only [noSepFrom, updDepth_ws h.1]
    rw [if_neg]
    · exact ih h.2
    · rintro ⟨hc, -⟩
      exact ws_ne_comma h.1 hc

lemma noSepFrom_trim {t : List Char} (h : noSepFrom 0 t = true) :
    noSepFrom 0 (trim t) = true := by
  obtain ⟨ws1, ws2, hws1, hws2, hdec⟩ := trim_decomp t
  rw [hdec] at h
  rw [noSepFrom_append, noSepFrom_append, depthOf_ws hws1] at h
  simp only [Bool.and_eq_true] at h
  exact h.1.2

lemma depthOf_trim {t : List Char} (h : depthOf 0 t = 0) :
    depthOf 0 (trim t) = 0 := by
  obtain ⟨ws1, ws2, hws1, hws2, hdec⟩ := trim_decomp t
  rw [hdec] at h
  rw [depthOf_append, depthOf_append, depthOf_ws hws1, depthOf_ws hws2] at h
  exact h

lemma splitAux_mem_items : ∀ (expr cur : List Char) (d : Int),
    depthOf 0 cur = d → noSepFrom 0 cur = true →
    ∀ t ∈ splitAux cur d expr, trim t = t ∧ noSepFrom 0 t = true := by
  intro expr
  induction expr with
  | nil =>
    intro cur d _ hns t ht
    simp only [splitAux] at ht
    split at ht
    · simp at ht
    · simp only [List.mem_singleton] at ht
      subst ht
      exact ⟨trim_idem cur, noSepFrom_trim hns⟩
  | cons c rest ih =>
    intro cur d hd hns t ht
    simp only [splitAux] at ht
    by_cases hc : c = ',' ∧ updDepth d c = 0
    · rw [if_pos hc] at ht
      rcases List.mem_cons.mp ht with ht' | ht'
      · subst ht'
        exact ⟨trim_idem cur, noSepFrom_trim hns⟩
      · exact ih [] (updDepth d c) (by rw [hc.2]; rfl) rfl t ht'
    · rw [if_neg hc] at ht
      refine ih (cur ++ [c]) (updDepth d c) ?_ ?_ t ht
      · rw [depthOf_append, hd]
        rfl
      · rw [noSepFrom_append, hns, hd]
        simp only [Bool.true_and]
        show (if c = ',' ∧ updDepth d c = 0 then false else noSepFrom (updDepth d c) []) = true
        rw [if_neg hc]
        rfl

lemma splitAux_mem_items_bal : ∀ (expr cur : List Char) (d : Int),
    depthOf 0 cur = d → noSepFrom 0 cur = true → depthOf d expr = 0 →
    ∀ t ∈ splitAux cur d expr,
      trim t = t ∧ noSepFrom 0 t = true ∧ depthOf 0 t = 0 := by
  intro expr
  induction expr with
  | nil =>
    intro cur d hd hns hdep t ht
    simp only [splitAux] at ht
    split at ht
    · simp at ht
    · simp only [List.mem_singleton] at ht
      subst ht
      have hd0 : depthOf 0 cur = 0 := by
        rw [hd]
        exact hdep
      exact ⟨trim_idem cur, noSepFrom_trim hns, depthOf_trim hd0⟩
  | cons c rest ih =>
    intro cur d hd hns hdep t ht
    simp only [splitAux] at ht
    have hdep' : depthOf (updDepth d c) rest = 0 := hdep
    by_cases hc : c = ',' ∧ updDepth d c = 0
    · rw [if_pos hc] at ht
      have hd0 : d = 0 := by
        have := hc.2
        rw [hc.1, updDepth_comma] at this
        exact this
      rcases List.mem_cons.mp ht with ht' | ht'
      · subst ht'
        have hcur0 : depthOf 0 cur = 0 := by rw [hd, hd0]
        exact ⟨trim_idem cur, noSepFrom_trim hns, depthOf_trim hcur0⟩
      · exact ih [] (updDepth d c) (by rw [hc.2]; rfl) rfl hdep' t ht'
    · rw [if_neg hc] at ht
      refine ih (cur ++ [c]) (updDepth d c) ?_ ?_ hdep' t ht
      · rw [depthOf_append, hd]
        rfl
      · rw [noSepFrom_append, hns, hd]
        simp only [Bool.true_and]
        show (if c = ',' ∧ updDepth d c = 0 then false else noSepFrom (updDepth d c) []) = true
        rw [if_neg hc]
        rfl

lemma splitAux_append_noSep : ∀ (a cur : List Char) (d : Int) (b : List Char),
    noSepFrom d a = true →
    splitAux cur d (a ++ b) = splitAux (cur ++ a) (depthOf d a) b := by
  intro a
  induction a with
  | nil =>
    intro cur d b _
    simp [depthOf]
  | cons c r ih =>
    intro cur d b h
    simp only [noSepFrom] at h
    by_cases hc : c = ',' ∧ updDepth d c = 0
    · rw [if_pos hc] at h
      exact absurd h (by simp)
    · rw [if_neg hc] at h
      rw [List.cons_append]
      show splitAux cur d (c :: (r ++ b)) = _
      simp only [splitAux]
      rw [if_neg hc, ih (cur ++ [c]) (updDepth d c) b h]
      simp only [List.append_assoc, List.singleton_append]
      rfl

lemma splitAux_noSep_flush (t cur : List Char) (d : Int) (h : noSepFrom d t = true) :
    splitAux cur d t = if trim (cur ++ t) = [] then [] else [trim (cur ++ t)] := by
  have h2 := splitAux_append_noSep t cur d [] h
  rw [List.append_nil] at h2
  rw [h2]
  rfl

lemma splitAux_comma_step (cur rest : List Char) :
    splitAux cur 0 (',' :: rest) = trim cur :: splitAux [] 0 rest := by
  show (if (',' : Char) = ',' ∧ updDepth 0 ',' = 0
      then trim cur :: splitAux [] (updDepth 0 ',') rest
      else splitAux (cur ++ [',']) (updDepth 0 ',') rest) = _
  rw [if_pos ⟨rfl, updDepth_comma 0⟩, show updDepth 0 ',' = 0 from updDepth_comma 0]

lemma splitAux_nonsep_step (cur : List Char) (c : Char) (rest : List Char) (d : Int)
    (hc : ¬(c = ',' ∧ updDepth d c = 0)) :
    splitAux cur d (c :: rest) = splitAux (cur ++ [c]) (updDepth d c) rest := by
  show (if c = ',' ∧ updDepth d c = 0
      then trim cur :: splitAux [] (updDepth d c) rest
      else splitAux (cur ++ [c]) (updDepth d c) rest) = _
  rw [if_neg hc]

lemma splitAux_join : ∀ (items : List (List Char)),
    (∀ t ∈ items, trim t = t ∧ noSepFrom 0 t = true ∧ depthOf 0 t = 0) →
    items.getLast? ≠ some [] →
    ∀ ws, ws.all isWS = true →
    splitAux ws 0 (joinSep [',', ' '] items) = items := by
  intro items
  induction items with
  | nil =>
    intro _ _ ws hws
    show (if trim ws = [] then [] else [trim ws]) = []
    rw [trim_nil_of_ws hws]
    rfl
  | cons t rest ih =>
    intro hitems hlast ws hws
    obtain ⟨htr, hns, hd⟩ := hitems t (by simp)
    have htrim : trim (ws ++ t) = t := by rw [trim_ws_append hws, htr]
    cases rest with
    | nil =>
      rw [show joinSep [',', ' '] [t] = t from rfl]
      rw [splitAux_noSep_flush t ws 0 hns, htrim]
      have hne : t ≠ [] := by
        intro h0
        exact hlast (by simp [h0])
      rw [if_neg hne]
    | cons t' ts =>
      have hjoin : joinSep [',', ' '] (t :: t' :: ts)
          = t ++ (',' :: ' ' :: joinSep [',', ' '] (t' :: ts)) := by
        simp [joinSep]
      rw [hjoin, splitAux_append_noSep t ws 0 _ hns, hd, splitAux_comma_step, htrim]
      congr 1
      rw [splitAux_nonsep_step [] ' ' _ 0 (by rintro ⟨hsp, -⟩; exact absurd hsp (by decide)),
        updDepth_ws (by decide)]
      refine ih ?_ ?_ ([] ++ [' ']) (by decide)
      · intro u hu
        exact hitems u (by simp [hu])
      · rw [List.getLast?_cons_cons] at hlast
        exact hlast

/-- C1 (amended): splitTopLevel splits its input on commas occurring at
parenthesis-nesting depth zero (inside every resulting item no comma sits
at depth zero, so commas inside parenthetical groups, nested ones
included, remain part of the enclosing item); every item in the result is
trimmed of surrounding whitespace; the trailing remainder is dropped when
it is empty after trimming, but an empty item arising between two
depth-zero commas is kept; in particular
splitTopLevel("Cookie Mix (flour, sugar), Butter") is
["Cookie Mix (flour, sugar)", "Butter"]. -/
theorem spec_c1_splitter :
    (∀ expr : List Char, (splitTopLevel expr).all
        (fun t => (trim t == t) && noSepFrom 0 t) = true) ∧
    splitTopLevel "Cookie Mix (flour, sugar), Butter".toList
      = ["Cookie Mix (flour, sugar)".toList, "Butter".toList] ∧
    splitTopLevel "a, ".toList = ["a".toList] ∧
    splitTopLevel ",a".toList = [[], "a".toList] := by
  refine ⟨?_, by decide, by decide, by decide⟩
  intro expr
  rw [List.all_eq_true]
  intro t ht
  obtain ⟨h1, h2⟩ := splitAux_mem_items expr [] 0 rfl rfl t ht
  simp [h1, h2]

/-- C1 counterexample: on the input ",a" the splitter keeps the empty
item produced before the comma, so the claim that every item that is
empty after trimming is dropped is false on the code. -/
theorem spec_c1_counterexample :
    splitTopLevel ",a".toList = [[], "a".toList] ∧
    [] ∈ splitTopLevel ",a".toList := by
  decide

/-- C4 (amended): for every expression whose parentheses are balanced and
whose split does not end in an empty item, splitting with splitTopLevel,
rejoining the items with a comma and a space, and splitting again yields
the same list of items. -/
theorem spec_c4_round_trip (expr : List Char)
    (hbal : balancedParens expr = true)
    (hlast : (splitTopLevel expr).getLast? ≠ some []) :
    splitTopLevel (joinSep ", ".toList (splitTopLevel expr)) = splitTopLevel expr := by
  have hdep : depthOf 0 expr = 0 := by
    simp only [balancedParens, Bool.and_eq_true, beq_iff_eq] at hbal
    exact hbal.2
  have hitems := splitAux_mem_items_bal expr [] 0 rfl rfl hdep
  exact splitAux_join (splitTopLevel expr) hitems hlast [] rfl

/-- C4 witness: the round trip evaluated at the Cookie Mix expression. -/
theorem spec_c4_round_trip_witness :
    splitTopLevel (joinSep ", ".toList
        (splitTopLevel "Cookie Mix (flour, sugar), Butter".toList))
      = splitTopLevel "Cookie Mix (flour, sugar), Butter".toList :=
  spec_c4_round_trip _ (by decide) (by decide)

/-- C4 counterexample: the expression consisting of one comma has
balanced parentheses, its split is the single empty item, the rejoin is
the empty string, and the second split is empty, so the claimed round
trip fails on the code as stated. -/
theorem spec_c4_counterexample :
    balancedParens ",".toList = true ∧
    splitTopLevel (joinSep ", ".toList (splitTopLevel ",".toList))
      ≠ splitTopLevel ",".toList := by
  decide

/-! Lemmas about comma splitting of the additional-ingredients text. -/

lemma splitComma_ne_nil (l : List Char) : splitComma l ≠ [] := by
  cases l with
  | nil => simp [splitComma]
  | cons c r =>
    simp only [splitComma]
    cases h : splitComma r with
    | nil => simp
    | cons h t =>
      by_cases hc : c = ','
      · simp [hc]
      · simp [hc]

lemma modifyLast_cons_cons (f : List Char → List Char) (x y : List Char)
    (ys : List (List Char)) :
    modifyLast f (x :: y :: ys) = x :: modifyLast f (y :: ys) := rfl

lemma splitComma_no_comma {l : List Char}
    (h : l.all (fun c => !(c == ',')) = true) : splitComma l = [l] := by
  induction l with
  | nil => rfl
  | cons c r ih =>
    simp only [List.all_cons, Bool.and_eq_true] at h
    have hc : ¬c = ',' := by simpa using h.1
    simp only [splitComma, ih h.2]
    simp [hc]

lemma all_not_comma_of_ws {ws : List Char} (h : ws.all isWS = true) :
    ws.all (fun c => !(c == ',')) = true := by
  rw [List.all_eq_true] at h ⊢
  intro c hc
  simpa using ws_ne_comma (h c hc)

lemma splitComma_cons_not_comma {c : Char} (l : List Char) (hc : c ≠ ',') :
    ∀ h t, splitComma l = h :: t → splitComma (c :: l) = (c :: h) :: t := by
  intro h t hl
  simp only [splitComma, hl]
  simp [hc]

lemma splitComma_append_no_comma {l ws : List Char}
    (h : ws.all (fun c => !(c == ',')) = true) :
    splitComma (l ++ ws) = modifyLast (fun x => x ++ ws) (splitComma l) := by
  induction l with
  | nil =>
    rw [List.nil_append, splitComma_no_comma h]
    rfl
  | cons c r ih =>
    cases hr : splitComma r with
    | nil => exact absurd hr (splitComma_ne_nil r)
    | cons h0 t0 =>
      rw [hr] at ih
      by_cases hc : c = ','
      · subst hc
        have h1 : splitComma (',' :: r) = [] :: h0 :: t0 := by
          simp [splitComma, hr]
        have h2 : splitComma (',' :: (r ++ ws))
            = [] :: modifyLast (fun x => x ++ ws) (h0 :: t0) := by
          cases t0 with
          | nil => simp [splitComma, ih, modifyLast]
          | cons y ys => simp [splitComma, ih, modifyLast_cons_cons]
        rw [List.cons_append, h2, h1]
        cases t0 with
        | nil => rfl
        | cons y ys => rfl
      · have h1 : splitComma (c :: r) = (c :: h0) :: t0 :=
          splitComma_cons_not_comma r hc h0 t0 hr
        rw [List.cons_append]
        cases ht0 : splitComma (r ++ ws) with
        | nil => exact absurd ht0 (splitComma_ne_nil _)
        | cons h1' t1' =>
          rw [splitComma_cons_not_comma (r ++ ws) hc h1' t1' ht0]
          rw [ht0] at ih
          rw [h1]
          cases t0 with
          | nil =>
            have : h1' = h0 ++ ws ∧ t1' = [] := by
              have := ih
              simp [modifyLast] at this
              exact ⟨this.1, this.2⟩
            rw [this.1, this.2]
            rfl
          | cons y ys =>
            have : h1' = h0 ∧ t1' = modifyLast (fun x => x ++ ws) (y :: ys) := by
              have := ih
              rw [modifyLast_cons_cons] at this
              exact ⟨(List.cons.injEq _ _ _ _).mp this |>.1,
                (List.cons.injEq _ _ _ _).mp this |>.2⟩
            rw [this.1, this.2, modifyLast_cons_cons]

lemma additionalTokens_cons_ws {c : Char} {l : List Char} (h : isWS c = true) :
    additionalTokens (c :: l) = additionalTokens l := by
  cases hl : splitComma l with
  | nil => exact absurd hl (splitComma_ne_nil l)
  | cons h0 t0 =>
    rw [additionalTokens, splitComma_cons_not_comma l (ws_ne_comma h) h0 t0 hl,
      additionalTokens, hl]
    simp only [List.map_cons, List.filter_cons, trim_cons_ws h]

lemma additionalTokens_ws_append {ws l : List Char} (h : ws.all isWS = true) :
    additionalTokens (ws ++ l) = additionalTokens l := by
  induction ws with
  | nil => rfl
  | cons c r ih =>
    simp only [List.all_cons, Bool.and_eq_true] at h
    rw [List.cons_append, additionalTokens_cons_ws h.1, ih h.2]

lemma map_trim_modifyLast_ws {ws : List Char} (h : ws.all isWS = true) :
    ∀ L : List (List Char),
      (modifyLast (fun x => x ++ ws) L).map trim = L.map trim := by
  intro L
  induction L with
  | nil => rfl
  | cons x xs ih =>
    cases xs with
    | nil => simp [modifyLast, trim_append_ws h]
    | cons y ys =>
      rw [modifyLast_cons_cons]
      show trim x :: (modifyLast (fun x => x ++ ws) (y :: ys)).map trim
        = trim x :: (y :: ys).map trim
      rw [ih]

lemma additionalTokens_append_ws {l ws : List Char} (h : ws.all isWS = true) :
    additionalTokens (l ++ ws) = additionalTokens l := by
  rw [additionalTokens, additionalTokens,
    splitComma_append_no_comma (all_not_comma_of_ws h),
    map_trim_modifyLast_ws h]

lemma additionalTokens_trim (l : List Char) :
    additionalTokens (trim l) = additionalTokens l := by
  obtain ⟨ws1, ws2, hws1, hws2, hdec⟩ := trim_decomp l
  conv_rhs => rw [hdec]
  rw [additionalTokens_append_ws hws2, additionalTokens_ws_append hws1]

lemma additionalTokens_of_trim_nil {l : List Char} (h : trim l = []) :
    additionalTokens l = [] := by
  obtain ⟨ws1, ws2, hws1, hws2, hdec⟩ := trim_decomp l
  rw [h, List.append_nil] at hdec
  rw [hdec, additionalTokens_ws_append hws1, additionalTokens,
    splitComma_no_comma (all_not_comma_of_ws hws2)]
  simp [trim_nil_of_ws hws2]

lemma parseIngredients_trim (l : List Char) :
    parseIngredients (trim l) = additionalTokens l := by
  by_cases h : trim l = []
  · rw [parseIngredients, h, if_pos (by rfl)]
    exact (additionalTokens_of_trim_nil h).symm
  · rw [parseIngredients, trim_idem l]
    rw [if_neg (by simpa using h)]
    exact additionalTokens_trim l

/-! Lemmas about the aggregation of presets and additional text. -/

lemma presetFlatItems_of_pos {p : Preset} :
    (if p.ingredients.length > 0 then p.ingredients else [p.name]) = presetFlatItems p := by
  rw [presetFlatItems]
  cases h : p.ingredients with
  | nil => simp
  | cons x xs => simp

lemma presetExprItem_of_pos {p : Preset} :
    (if p.ingredients.length > 0 then
        [p.name ++ " (".toList ++ joinSep ", ".toList p.ingredients ++ ")".toList]
      else [p.name]) = [presetExprItem p] := by
  rw [presetExprItem]
  cases h : p.ingredients with
  | nil => simp
  | cons x xs => simp

lemma collectStep_none {presets : List Preset} {pid : List Char}
    (acc : List (List Char)) (h : getPresetById presets pid = none) :
    collectStep presets acc pid = acc := by
  simp [collectStep, h]

lemma collectStep_some {presets : List Preset} {pid : List Char} {p : Preset}
    (acc : List (List Char)) (h : getPresetById presets pid = some p) :
    collectStep presets acc pid = acc ++ presetFlatItems p := by
  simp only [collectStep, h]
  rw [← presetFlatItems_of_pos]
  exact (apply_ite (fun x => acc ++ x) _ _ _).symm

lemma exprStep_none {presets : List Preset} {pid : List Char}
    (acc : List (List Char)) (h : getPresetById presets pid = none) :
    exprStep presets acc pid = acc := by
  simp [exprStep, h]

lemma exprStep_some {presets : List Preset} {pid : List Char} {p : Preset}
    (acc : List (List Char)) (h : getPresetById presets pid = some p) :
    exprStep presets acc pid = acc ++ [presetExprItem p] := by
  simp only [exprStep, h]
  rw [← presetExprItem_of_pos]
  exact (apply_ite (fun x => acc ++ x) _ _ _).symm

lemma collect_fold_eq (presets : List Preset) :
    ∀ (ids : List (List Char)) (acc : List (List Char)),
      ids.foldl (collectStep presets) acc
      = acc ++ ((selectedPresets presets ids).map presetFlatItems).flatten := by
  intro ids
  induction ids with
  | nil =>
    intro acc
    simp [selectedPresets]
  | cons pid rest ih =>
    intro acc
    rw [List.foldl_cons]
    cases h : getPresetById presets pid with
    | none =>
      rw [collectStep_none acc h, ih acc]
      simp [selectedPresets, List.filterMap_cons, h]
    | some p =>
      rw [collectStep_some acc h, ih (acc ++ presetFlatItems p)]
      simp [selectedPresets, List.filterMap_cons, h, List.append_assoc]

lemma expr_fold_eq (presets : List Preset) :
    ∀ (ids : List (List Char)) (acc : List (List Char)),
      ids.foldl (exprStep presets) acc
      = acc ++ (selectedPresets presets ids).map presetExprItem := by
  intro ids
  induction ids with
  | nil =>
    intro acc
    simp [selectedPresets]
  | cons pid rest ih =>
    intro acc
    rw [List.foldl_cons]
    cases h : getPresetById presets pid with
    | none =>
      rw [exprStep_none acc h, ih acc]
      simp [selectedPresets, List.filterMap_cons, h]
    | some p =>
      rw [exprStep_some acc h, ih (acc ++ [presetExprItem p])]
      simp [selectedPresets, List.filterMap_cons, h, List.append_assoc]

lemma collectAllIngredients_eq (presets : List Preset) (ids : List (List Char))
    (addl : List Char) :
    collectAllIngredients presets ids addl
      = aggregateFlat (selectedPresets presets ids) addl := by
  rw [collectAllIngredients, aggregateFlat, collect_fold_eq presets ids []]
  by_cases h : trim addl = []
  · rw [if_neg (by simpa using h)] at *
    rw [additionalTokens_of_trim_nil h]
    simp
  · rw [if_pos (by simpa using h)]
    rw [parseIngredients_trim addl]
    simp

lemma buildFormattedLabelText_eq (presets : List Preset) (ids : List (List Char))
    (addl : List Char) :
    buildFormattedLabelText presets ids addl
      = aggregateExpr (selectedPresets presets ids) addl := by
  rw [buildFormattedLabelText, aggregateExpr, expr_fold_eq presets ids []]
  by_cases h : trim addl = []
  · rw [if_neg (by simpa using h)]
    rw [additionalTokens_of_trim_nil h]
    simp
  · rw [if_pos (by simpa using h)]
    rw [parseIngredients_trim addl]
    simp

/-- C2: aggregation iterates the resolved selected presets in selection
order; a preset with sub-ingredients contributes the expression item
"name (sub1, sub2, ...)" and its sub-ingredients (not its name) to the
flat list, a preset without sub-ingredients contributes just its name to
both; afterwards each trimmed non-empty comma-separated token of the
additional text is appended to both; the canonical expression joins the
expression items with a comma and a space; output order is selection
order then additional-text order, with no sorting. The specification
example with Spices (Cinnamon, Nutmeg) and "Vanilla, Salt" follows. -/
theorem spec_c2_aggregation :
    (∀ (presets : List Preset) (ids : List (List Char)) (addl : List Char),
      buildFormattedLabelText presets ids addl
        = aggregateExpr (selectedPresets presets ids) addl ∧
      collectAllIngredients presets ids addl
        = aggregateFlat (selectedPresets presets ids) addl) ∧
    buildFormattedLabelText [spicesNutmegPreset] ["p1".toList] "Vanilla, Salt".toList
      = "Spices (Cinnamon, Nutmeg), Vanilla, Salt".toList ∧
    collectAllIngredients [spicesNutmegPreset] ["p1".toList] "Vanilla, Salt".toList
      = ["Cinnamon".toList, "Nutmeg".toList, "Vanilla".toList, "Salt".toList] := by
  refine ⟨fun presets ids addl =>
    ⟨buildFormattedLabelText_eq presets ids addl,
     collectAllIngredients_eq presets ids addl⟩, by decide, by decide⟩

/-- C8: with no selected presets and an additional-ingredients text that
yields zero tokens, aggregation succeeds and returns an empty flat list
and an empty canonical expression; rejecting that is left to the caller. -/
theorem spec_c8_empty_aggregation (presets : List Preset) (addl : List Char)
    (htok : additionalTokens addl = []) :
    collectAllIngredients presets [] addl = [] ∧
    buildFormattedLabelText presets [] addl = [] := by
  constructor
  · rw [collectAllIngredients_eq presets [] addl, aggregateFlat, htok]
    rfl
  · rw [buildFormattedLabelText_eq presets [] addl, aggregateExpr, htok]
    rfl

/-- C8 witness: the empty aggregation evaluated with a blank-token
additional text. -/
theorem spec_c8_empty_aggregation_witness :
    collectAllIngredients [] [] " , ".toList = [] ∧
    buildFormattedLabelText [] [] " , ".toList = [] :=
  spec_c8_empty_aggregation [] " , ".toList (by decide)

/-- C3 (amended): boldPresetNames re-splits the expression into top-level
items (parenthesis-aware) and rejoins them with a comma and a space; an
item whose first opening parenthesis sits at a positive index has only
its trimmed prefix before the parenthesis escaped and emphasized, and the
remainder of the item starting at the parenthesis is appended verbatim,
neither emphasized nor re-escaped; an item with no opening parenthesis,
or with its first opening parenthesis at index zero, is escaped and
emphasized in full; on "Spices (Cinnamon, Nutmeg), Butter" exactly Spices
and Butter are emphasized and "(Cinnamon, Nutmeg)" is left untouched. -/
theorem spec_c3_bold_names :
    (∀ text : List Char, formatIngredientsWithBoldPresetNames text
        = joinSep ", ".toList ((splitTopLevel text).map boldItem)) ∧
    (∀ (part : List Char) (i : Nat), part.findIdx? (fun c => c = '(') = some i → 0 < i →
      boldItem part = "<strong>".toList ++ escapeHtml (trim (part.take i))
        ++ "</strong> ".toList ++ part.drop i) ∧
    (∀ part : List Char, part.findIdx? (fun c => c = '(') = none →
      boldItem part = "<strong>".toList ++ escapeHtml part ++ "</strong>".toList) ∧
    formatIngredientsWithBoldPresetNames "Spices (Cinnamon, Nutmeg), Butter".toList
      = "<strong>Spices</strong> (Cinnamon, Nutmeg), <strong>Butter</strong>".toList := by
  refine ⟨?_, ?_, ?_, by decide⟩
  · intro text
    rw [formatIngredientsWithBoldPresetNames]
    by_cases h : text.isEmpty
    · rw [if_pos h]
      rw [List.isEmpty_iff] at h
      subst h
      rfl
    · rw [if_neg h]
  · intro part i h1 h2
    rw [boldItem, h1]
    show (if 0 < i then "<strong>".toList ++ escapeHtml (trim (part.take i))
        ++ "</strong> ".toList ++ part.drop i
      else "<strong>".toList ++ escapeHtml part ++ "</strong>".toList) = _
    rw [if_pos h2]
  · intro part h
    rw [boldItem, h]

/-- C3 witness: the positive-index branch evaluated on the Spices item. -/
theorem spec_c3_bold_names_witness :
    boldItem "Spices (Cinnamon, Nutmeg)".toList
      = "<strong>".toList ++ escapeHtml (trim ("Spices (Cinnamon, Nutmeg)".toList.take 7))
        ++ "</strong> ".toList ++ "Spices (Cinnamon, Nutmeg)".toList.drop 7 :=
  spec_c3_bold_names.2.1 _ 7 (by decide) (by decide)

/-- C3 counterexample: an item beginning with the opening parenthesis is
escaped and emphasized in full, because the JavaScript test is parenIndex
strictly greater than zero; on the expression "(<)" the parenthetical
content is both emphasized and re-escaped, contradicting the claim that
in every item containing "(" the parenthetical substring stays unmodified
and unescaped. -/
theorem spec_c3_counterexample :
    formatIngredientsWithBoldPresetNames "(<)".toList
      = "<strong>(&lt;)</strong>".toList ∧
    formatIngredientsWithBoldPresetNames "(<)".toList
      ≠ "<strong></strong> (<)".toList := by
  decide

/-! Lemmas about character case mapping. -/

lemma toNat_ofNat_valid {n : Nat} (h : n.isValidChar) : (Char.ofNat n).toNat = n := by
  simp [Char.ofNat, dif_pos h]
  rfl

lemma char_eq_of_toNat {c d : Char} (h : c.toNat = d.toNat) : c = d := by
  apply Char.ext
  apply UInt32.ext
  simpa [Char.toNat] using h

lemma toLower_toNat_of_upper {c : Char} (h1 : 65 ≤ c.toNat) (h2 : c.toNat ≤ 90) :
    (Char.toLower c).toNat = c.toNat + 32 := by
  have hv : (c.toNat + 32).isValidChar := by
    left
    omega
  simp only [Char.toLower]
  rw [if_pos ⟨h1, h2⟩]
  exact toNat_ofNat_valid hv

lemma toLower_eq_self_of_not_upper {c : Char} (h : ¬(65 ≤ c.toNat ∧ c.toNat ≤ 90)) :
    Char.toLower c = c := by
  simp only [Char.toLower]
  rw [if_neg h]

lemma toLower_ne_self_of_upper {c : Char} (h1 : 65 ≤ c.toNat) (h2 : c.toNat ≤ 90) :
    Char.toLower c ≠ c := by
  intro he
  have h3 := toLower_toNat_of_upper h1 h2
  rw [he] at h3
  omega

lemma toUpper_toNat_of_lower {c : Char} (h1 : 97 ≤ c.toNat) (h2 : c.toNat ≤ 122) :
    (Char.toUpper c).toNat = c.toNat - 32 := by
  have hv : (c.toNat - 32).isValidChar := by
    left
    omega
  simp only [Char.toUpper]
  rw [if_pos ⟨h1, h2⟩]
  exact toNat_ofNat_valid hv

lemma toUpper_eq_self_of_not_lower {c : Char} (h : ¬(97 ≤ c.toNat ∧ c.toNat ≤ 122)) :
    Char.toUpper c = c := by
  simp only [Char.toUpper]
  rw [if_neg h]

lemma toUpper_ne_self_of_lower {c : Char} (h1 : 97 ≤ c.toNat) (h2 : c.toNat ≤ 122) :
    Char.toUpper c ≠ c := by
  intro he
  have h3 := toUpper_toNat_of_lower h1 h2
  rw [he] at h3
  omega

lemma toUpper_eq_low_iff {a : Char} (ha : a.toNat < 65) (c : Char) :
    Char.toUpper c = a ↔ c = a := by
  constructor
  · intro h
    by_cases hc : 97 ≤ c.toNat ∧ c.toNat ≤ 122
    · exfalso
      have h3 := toUpper_toNat_of_lower hc.1 hc.2
      rw [h] at h3
      omega
    · rwa [toUpper_eq_self_of_not_lower hc] at h
  · intro h
    subst h
    apply toUpper_eq_self_of_not_lower
    omega

lemma map_eq_self_iff_forall (f : Char → Char) (l : List Char) :
    l.map f = l ↔ ∀ c ∈ l, f c = c := by
  induction l with
  | nil => simp
  | cons x xs ih => simp [ih]

/-- C5 (amended): identifier resolution is total and deterministic: a
24-character lower-case (canonical) hexadecimal string yields a
primary-key lookup, every other string, the empty string included, yields
a legacy-field lookup against the dedicated id attribute, and every input
yields one of the two lookups (the function never fails). A 24-character
hexadecimal string containing an upper-case digit fails the
toString-round-trip test of the source and falls to the legacy branch,
which is the corrected part of the claim. -/
theorem spec_c5_resolver :
    (∀ id : List Char, isCanonicalObjectId id = true →
      getPresetQuery id = .primaryKey id) ∧
    (∀ id : List Char, isCanonicalObjectId id = false →
      getPresetQuery id = .legacyId id) ∧
    (∀ id : List Char,
      getPresetQuery id = .primaryKey id ∨ getPresetQuery id = .legacyId id) := by
  have key : ∀ id : List Char,
      (objectIdIsValid id = true ∧ lowerStr id = id) ↔ isCanonicalObjectId id = true := by
    intro id
    simp only [objectIdIsValid, isCanonicalObjectId, Bool.and_eq_true, List.all_eq_true,
      lowerStr, map_eq_self_iff_forall]
    constructor
    · rintro ⟨⟨hlen, hhex⟩, hfix⟩
      refine ⟨hlen, fun c hc => ?_⟩
      have h1 := hhex c hc
      have h2 := hfix c hc
      simp only [isHexDigitCh, Bool.or_eq_true, Bool.and_eq_true, decide_eq_true_eq] at h1
      simp only [isLowerHexDigitCh, Bool.or_eq_true, Bool.and_eq_true, decide_eq_true_eq]
      rcases h1 with (h1 | h1) | h1
      · exact Or.inl h1
      · exact Or.inr h1
      · exact absurd h2 (toLower_ne_self_of_upper (by omega) (by omega))
    · rintro ⟨hlen, hlow⟩
      refine ⟨⟨hlen, fun c hc => ?_⟩, fun c hc => ?_⟩
      · have h1 := hlow c hc
        simp only [isLowerHexDigitCh, Bool.or_eq_true, Bool.and_eq_true,
          decide_eq_true_eq] at h1
        simp only [isHexDigitCh, Bool.or_eq_true, Bool.and_eq_true, decide_eq_true_eq]
        tauto
      · have h1 := hlow c hc
        simp only [isLowerHexDigitCh, Bool.or_eq_true, Bool.and_eq_true,
          decide_eq_true_eq] at h1
        exact toLower_eq_self_of_not_upper (by omega)
  refine ⟨?_, ?_, ?_⟩
  · intro id h
    obtain ⟨h1, h2⟩ := (key id).mpr h
    rw [getPresetQuery, if_pos]
    rw [Bool.and_eq_true, beq_iff_eq]
    exact ⟨h1, h2⟩
  · intro id h
    rw [getPresetQuery, if_neg]
    intro hc
    rw [Bool.and_eq_true, beq_iff_eq] at hc
    rw [(key id).mp ⟨hc.1, hc.2⟩] at h
    exact absurd h (by decide)
  · intro id
    rw [getPresetQuery]
    split
    · exact Or.inl rfl
    · exact Or.inr rfl

/-- C5 witness: a canonical identifier resolves to the primary key, a
legacy identifier to the legacy lookup. -/
theorem spec_c5_resolver_witness :
    getPresetQuery "0123456789abcdef01234567".toList
      = LookupKey.primaryKey "0123456789abcdef01234567".toList ∧
    getPresetQuery "default-1".toList = LookupKey.legacyId "default-1".toList :=
  ⟨spec_c5_resolver.1 _ (by decide), spec_c5_resolver.2.1 _ (by decide)⟩

/-- C5 counterexample: an upper-case 24-character hexadecimal string is a
24-character hexadecimal string, yet it resolves to the legacy lookup,
because new ObjectId(id).toString() returns the lower-case rendering,
which differs from the input. -/
theorem spec_c5_counterexample :
    "ABCDEFABCDEFABCDEFABCDEF".toList.length = 24 ∧
    "ABCDEFABCDEFABCDEFABCDEF".toList.all isHexDigitCh = true ∧
    getPresetQuery "ABCDEFABCDEFABCDEFABCDEF".toList
      = LookupKey.legacyId "ABCDEFABCDEFABCDEFABCDEF".toList := by
  decide

/-! Lemmas about substring containment and the search matcher. -/

lemma prefixB_iff : ∀ (p h : List Char), prefixB p h = true ↔ ∃ t, h = p ++ t := by
  intro p
  induction p with
  | nil =>
    intro h
    simp [prefixB]
  | cons c ps ih =>
    intro h
    cases h with
    | nil => simp [prefixB]
    | cons d hs =>
      simp only [prefixB, Bool.and_eq_true, beq_iff_eq, ih hs]
      constructor
      · rintro ⟨rfl, t, rfl⟩
        exact ⟨t, rfl⟩
      · rintro ⟨t, ht⟩
        rw [List.cons_append] at ht
        injection ht with h1 h2
        exact ⟨h1.symm, t, h2⟩

lemma containsSub_iff : ∀ (hay pat : List Char),
    containsSub hay pat = true ↔ ∃ a b, hay = a ++ pat ++ b := by
  intro hay
  induction hay with
  | nil =>
    intro pat
    simp only [containsSub, List.isEmpty_iff]
    constructor
    · intro h
      exact ⟨[], [], by simp [h]⟩
    · rintro ⟨a, b, hab⟩
      have h2 := hab.symm
      rw [List.append_eq_nil] at h2
      have h3 := h2.1
      rw [List.append_eq_nil] at h3
      exact h3.2
  | cons c t ih =>
    intro pat
    simp only [containsSub, Bool.or_eq_true, prefixB_iff, ih]
    constructor
    · rintro (⟨s, hs⟩ | ⟨a, b, hab⟩)
      · exact ⟨[], s, by simpa using hs⟩
      · exact ⟨c :: a, b, by simp [hab]⟩
    · rintro ⟨a, b, hab⟩
      cases a with
      | nil =>
        exact Or.inl ⟨b, by simpa using hab⟩
      | cons x xs =>
        rw [List.cons_append] at hab
        injection hab with h1 h2
        exact Or.inr ⟨xs, b, h2⟩

/-- C6 (amended): for every query whose trimmed form is free of regex
metacharacters — the domain on which the handler's Mongo regex performs
literal substring search — the search matcher returns true exactly when
the query is blank or when the trimmed query is a case-insensitive
substring of the preset name, of the brand name when that field is
present, or of at least one ingredient; every blank or whitespace-only
query matches every preset. The matcher tests the trimmed query, not the
query itself, which is the corrected part of the claim. The
specification example matches "cinn" against the Cinnamon ingredient. -/
theorem spec_c6_matcher :
    (∀ (p : Preset) (q : List Char), isLiteralPattern (trim q) = true →
      (presetMatches p q = true ↔
        (trim q = [] ∨
          (∃ a b, lowerStr p.name = a ++ lowerStr (trim q) ++ b) ∨
          (∃ s a b, p.brandName = some s ∧ lowerStr s = a ++ lowerStr (trim q) ++ b) ∨
          (∃ ing ∈ p.ingredients, ∃ a b, lowerStr ing = a ++ lowerStr (trim q) ++ b)))) ∧
    (∀ (p : Preset) (q : List Char), trim q = [] → presetMatches p q = true) ∧
    presetMatches spicesPreset "cinn".toList = true := by
  refine ⟨?_, ?_, by decide⟩
  case refine_2 =>
    intro p q h
    rw [presetMatches, if_pos (by rw [h]; rfl)]
  intro p q _
  rw [presetMatches]
  by_cases h : (trim q).isEmpty
  · rw [if_pos h]
    rw [List.isEmpty_iff] at h
    simp [h]
  · rw [if_neg h]
    rw [List.isEmpty_iff] at h
    cases hbn : p.brandName with
    | none =>
      simp only [Bool.or_eq_true, containsCI, containsSub_iff, List.any_eq_true]
      constructor
      · rintro ((hn | hfalse) | hi)
        · exact Or.inr (Or.inl hn)
        · exact absurd hfalse (by simp)
        · exact Or.inr (Or.inr (Or.inr hi))
      · rintro (hq | hn | ⟨s, a, b, hs, -⟩ | hi)
        · exact absurd hq h
        · exact Or.inl (Or.inl hn)
        · exact absurd hs (by simp)
        · exact Or.inr hi
    | some s =>
      simp only [Bool.or_eq_true, containsCI, containsSub_iff, List.any_eq_true]
      constructor
      · rintro ((hn | hb) | hi)
        · exact Or.inr (Or.inl hn)
        · exact Or.inr (Or.inr (Or.inl ⟨s, hb.choose, hb.choose_spec.choose,
            rfl, hb.choose_spec.choose_spec⟩))
        · exact Or.inr (Or.inr (Or.inr hi))
      · rintro (hq | hn | ⟨s', a, b, hs, hsub⟩ | hi)
        · exact absurd hq h
        · exact Or.inl (Or.inl hn)
        · injection hs with hs'
          subst hs'
          exact Or.inl (Or.inr ⟨a, b, hsub⟩)
        · exact Or.inr hi

/-- C6 counterexample: on the query " cinn " (padded with spaces, free of
regex metacharacters, so the handler's regex search is exactly literal
substring search here) the matcher returns true for the Spices preset,
although the query itself is not a case-insensitive substring of the
name, of the absent brand name, or of any ingredient; the code matches
the trimmed query, refuting the claim as stated. -/
theorem spec_c6_counterexample :
    presetMatches spicesPreset " cinn ".toList = true ∧
    isLiteralPattern (trim " cinn ".toList) = true ∧
    trim " cinn ".toList ≠ [] ∧
    containsSub (lowerStr spicesPreset.name) (lowerStr " cinn ".toList) = false ∧
    spicesPreset.brandName = none ∧
    spicesPreset.ingredients.all
      (fun ing => !(containsSub (lowerStr ing) (lowerStr " cinn ".toList))) = true := by
  decide

/-- C6 witness: the characterization evaluated at the Spices preset and
the literal query "cinn". -/
theorem spec_c6_matcher_witness :
    presetMatches spicesPreset "cinn".toList = true ↔
      (trim "cinn".toList = [] ∨
        (∃ a b, lowerStr spicesPreset.name = a ++ lowerStr (trim "cinn".toList) ++ b) ∨
        (∃ s a b, spicesPreset.brandName = some s ∧
          lowerStr s = a ++ lowerStr (trim "cinn".toList) ++ b) ∨
        (∃ ing ∈ spicesPreset.ingredients, ∃ a b,
          lowerStr ing = a ++ lowerStr (trim "cinn".toList) ++ b)) :=
  spec_c6_matcher.1 spicesPreset "cinn".toList (by decide)

/-! Lemmas about the two label renderers. -/

lemma joinSep_cons_ne {sep x : List Char} (xs : List (List Char)) (hx : x ≠ []) :
    joinSep sep (x :: xs) ≠ [] := by
  cases xs with
  | nil => simpa [joinSep] using hx
  | cons y ys =>
    rw [joinSep]
    simp [List.append_eq_nil, hx]

lemma businessPlainLine_ne_nil {l : Label} (h : ¬l.businessName.isEmpty = true) :
    ¬(businessPlainLine l).isEmpty = true := by
  rw [businessPlainLine]
  rw [show ([l.businessName, l.businessAddress, l.businessCity, l.businessState,
      l.businessZip, l.businessPhone]).filter (fun p => !p.isEmpty)
    = l.businessName :: ([l.businessAddress, l.businessCity, l.businessState,
      l.businessZip, l.businessPhone]).filter (fun p => !p.isEmpty) from by
    rw [List.filter_cons, if_pos (by simpa using h)]]
  rw [List.isEmpty_iff]
  exact joinSep_cons_ne _ (by simpa [List.isEmpty_iff] using h)

/-- C7: the plain-text rendering and the rich-markup rendering are built
from the same section list, filtered by the same presence conditions, in
the same fixed order: the plain text is the present sections' plain lines
joined with a single newline (one section per line, field values inserted
verbatim, with no emphasis markers and no escaping), and the rich markup
is the present sections' divs concatenated inside the wrapper div. -/
theorem spec_c7_sections (l : Label) :
    buildFullLabelText l
      = joinSep ['\n'] ((allSections.filter (sectionPresent l)).map (plainLine l)) ∧
    buildFormattedLabelHtml l
      = htmlWrapPrefix
        ++ (allSections.map
            (fun s => if sectionPresent l s then htmlSectionBody l s else [])).flatten
        ++ "</div>".toList := by
  have hsplit : allSections
      = [LabelSection.productName] ++ [LabelSection.ingredientsLine]
        ++ [LabelSection.allergenLine] ++ [LabelSection.businessLine]
        ++ [LabelSection.netQuantityLine] ++ [LabelSection.cottageLine] := rfl
  constructor
  · have e1 : (if l.name.isEmpty = true then [] else [l.name])
        = (List.filter (sectionPresent l) [LabelSection.productName]).map (plainLine l) := by
      by_cases h : l.name.isEmpty <;> simp [sectionPresent, plainLine, h]
    have e2 : (if (stripBracketsFromIngredients l.text).isEmpty = true then []
          else ["Ingredients: ".toList ++ stripBracketsFromIngredients l.text])
        = (List.filter (sectionPresent l) [LabelSection.ingredientsLine]).map (plainLine l) := by
      by_cases h : (stripBracketsFromIngredients l.text).isEmpty <;>
        simp [sectionPresent, plainLine, h]
    have e3 : (if l.allergens.isEmpty = true then [] else [plainAllergenLine l])
        = (List.filter (sectionPresent l) [LabelSection.allergenLine]).map (plainLine l) := by
      by_cases h : l.allergens.isEmpty <;> simp [sectionPresent, plainLine, h]
    have e4 : (if l.businessName.isEmpty = true then []
          else if (businessPlainLine l).isEmpty = true then [] else [businessPlainLine l])
        = (List.filter (sectionPresent l) [LabelSection.businessLine]).map (plainLine l) := by
      by_cases h : l.businessName.isEmpty
      · simp [sectionPresent, h]
      · rw [if_neg h, if_neg (businessPlainLine_ne_nil h)]
        simp [sectionPresent, plainLine, h]
    have e5 : (if l.netQuantity.isEmpty = true then [] else [netPlainLine l])
        = (List.filter (sectionPresent l) [LabelSection.netQuantityLine]).map (plainLine l) := by
      by_cases h : l.netQuantity.isEmpty <;> simp [sectionPresent, plainLine, h]
    have e6 : (if l.includeCottageDisclaimer = true then [cottageDisclaimerText] else [])
        = (List.filter (sectionPresent l) [LabelSection.cottageLine]).map (plainLine l) := by
      by_cases h : l.includeCottageDisclaimer <;> simp [sectionPresent, plainLine, h]
    rw [buildFullLabelText, hsplit]
    simp only [List.filter_append, List.map_append]
    rw [← e1, ← e2, ← e3, ← e4, ← e5, ← e6]
  · have f1 : (if l.name.isEmpty = true then [] else divProduct l)
        = (if sectionPresent l LabelSection.productName = true
            then htmlSectionBody l LabelSection.productName else []) := by
      by_cases h : l.name.isEmpty <;> simp [sectionPresent, htmlSectionBody, h]
    have f2 : (if (stripBracketsFromIngredients l.text).isEmpty = true then []
          else divIngredients l)
        = (if sectionPresent l LabelSection.ingredientsLine = true
            then htmlSectionBody l LabelSection.ingredientsLine else []) := by
      by_cases h : (stripBracketsFromIngredients l.text).isEmpty <;>
        simp [sectionPresent, htmlSectionBody, h]
    have f3 : (if l.allergens.isEmpty = true then [] else divAllergens l)
        = (if sectionPresent l LabelSection.allergenLine = true
            then htmlSectionBody l LabelSection.allergenLine else []) := by
      by_cases h : l.allergens.isEmpty <;> simp [sectionPresent, htmlSectionBody, h]
    have f4 : (if l.businessName.isEmpty = true then [] else divBusiness l)
        = (if sectionPresent l LabelSection.businessLine = true
            then htmlSectionBody l LabelSection.businessLine else []) := by
      by_cases h : l.businessName.isEmpty <;> simp [sectionPresent, htmlSectionBody, h]
    have f5 : (if l.netQuantity.isEmpty = true then [] else divNet l)
        = (if sectionPresent l LabelSection.netQuantityLine = true
            then htmlSectionBody l LabelSection.netQuantityLine else []) := by
      by_cases h : l.netQuantity.isEmpty <;> simp [sectionPresent, htmlSectionBody, h]
    have f6 : (if l.includeCottageDisclaimer = true then divCottage else [])
        = (if sectionPresent l LabelSection.cottageLine = true
            then htmlSectionBody l LabelSection.cottageLine else []) := by
      by_cases h : l.includeCottageDisclaimer <;> simp [sectionPresent, htmlSectionBody, h]
    rw [buildFormattedLabelHtml]
    simp only [allSections, List.map_cons, List.map_nil, List.flatten_cons, List.flatten_nil]
    rw [← f1, ← f2, ← f3, ← f4, ← f5, ← f6]
    simp [List.append_assoc]

/-! Lemmas about whitespace collapse and storage-text normalization. -/

lemma allWSisSpace_cons (c : Char) (r : List Char) :
    allWSisSpace (c :: r) = ((!isWS c || c == ' ') && allWSisSpace r) := rfl

lemma collapseWS_allWSisSpace (l : List Char) : ∀ b : Bool,
    allWSisSpace (collapseWS b l) = true := by
  induction l with
  | nil => intro b; rfl
  | cons c r ih =>
    intro b
    rw [collapseWS]
    by_cases h : isWS c = true
    · rw [if_pos h]
      cases b with
      | true => simpa using ih true
      | false =>
        simp only [Bool.false_eq_true, if_false]
        rw [allWSisSpace_cons, ih true]
        decide
    · rw [if_neg h]
      rw [allWSisSpace_cons, ih false]
      simp [Bool.eq_false_iff.mpr h]

lemma noAdjWS_cons_cons (c d : Char) (m : List Char) :
    noAdjWS (c :: d :: m) = ((!(isWS c && isWS d)) && noAdjWS (d :: m)) := rfl

lemma noAdjWS_cons_tail {c : Char} {xs : List Char} (h : noAdjWS (c :: xs) = true) :
    noAdjWS xs = true := by
  cases xs with
  | nil => rfl
  | cons d m =>
    rw [noAdjWS_cons_cons] at h
    simp only [Bool.and_eq_true] at h
    exact h.2

lemma noAdjWS_append_right : ∀ a b : List Char, noAdjWS (a ++ b) = true → noAdjWS b = true := by
  intro a
  induction a with
  | nil => exact fun b h => h
  | cons c r ih =>
    intro b h
    rw [List.cons_append] at h
    exact ih b (noAdjWS_cons_tail h)

lemma noAdjWS_append_left : ∀ a b : List Char, noAdjWS (a ++ b) = true → noAdjWS a = true := by
  intro a
  induction a with
  | nil => intro b _; rfl
  | cons c r ih =>
    intro b h
    cases r with
    | nil => rfl
    | cons d m =>
      rw [List.cons_append, List.cons_append, noAdjWS_cons_cons] at h
      simp only [Bool.and_eq_true] at h
      obtain ⟨hpair, htail⟩ := h
      rw [noAdjWS_cons_cons, hpair, Bool.true_and]
      exact ih b (by rw [List.cons_append]; exact htail)

lemma collapseWS_noAdj (l : List Char) :
    noAdjWS (collapseWS false l) = true ∧ noAdjWS (collapseWS true l) = true ∧
      (collapseWS true l = [] ∨
        ∃ d m, collapseWS true l = d :: m ∧ isWS d = false) := by
  induction l with
  | nil => exact ⟨rfl, rfl, Or.inl rfl⟩
  | cons c r ih =>
    obtain ⟨ih1, ih2, ih3⟩ := ih
    by_cases h : isWS c = true
    · have hf : collapseWS false (c :: r) = ' ' :: collapseWS true r := by
        simp [collapseWS, h]
      have ht : collapseWS true (c :: r) = collapseWS true r := by
        simp [collapseWS, h]
      refine ⟨?_, by rw [ht]; exact ih2, by rw [ht]; exact ih3⟩
      rw [hf]
      rcases ih3 with h0 | ⟨d, m, hm, hd⟩
      · rw [h0]
        rfl
      · rw [hm, noAdjWS_cons_cons, hd]
        rw [hm] at ih2
        simpa using ih2
    · have hf : collapseWS false (c :: r) = c :: collapseWS false r := by
        simp [collapseWS, h]
      have ht : collapseWS true (c :: r) = c :: collapseWS false r := by
        simp [collapseWS, h]
      have hno : noAdjWS (c :: collapseWS false r) = true := by
        cases hm : collapseWS false r with
        | nil => rfl
        | cons d m =>
          rw [noAdjWS_cons_cons, Bool.eq_false_iff.mpr h]
          rw [hm] at ih1
          simpa using ih1
      exact ⟨by rw [hf]; exact hno, by rw [ht]; exact hno,
        Or.inr ⟨c, collapseWS false r, ht, Bool.eq_false_iff.mpr h⟩⟩

lemma collapseWS_id_of_canon : ∀ l : List Char, allWSisSpace l = true → noAdjWS l = true →
    collapseWS false l = l ∧ (isWS (l.headD 'x') = false → collapseWS true l = l) := by
  intro l
  induction l with
  | nil => exact fun _ _ => ⟨rfl, fun _ => rfl⟩
  | cons c r ih =>
    intro hall hno
    simp only [allWSisSpace, List.all_cons, Bool.and_eq_true] at hall
    obtain ⟨hc, hrest⟩ := hall
    have hall' : allWSisSpace r = true := hrest
    have hno' : noAdjWS r = true := noAdjWS_cons_tail hno
    obtain ⟨ihf, iht⟩ := ih hall' hno'
    by_cases h : isWS c = true
    · have hsp : c = ' ' := by
        simp only [Bool.or_eq_true] at hc
        rcases hc with h' | h'
        · rw [h] at h'
          cases h'
        · exact beq_iff_eq.mp h'
      have hhead : isWS (r.headD 'x') = false := by
        cases r with
        | nil => decide
        | cons d m =>
          rw [noAdjWS_cons_cons] at hno
          simp only [Bool.and_eq_true] at hno
          obtain ⟨hpair, -⟩ := hno
          rw [h] at hpair
          simpa using hpair
      constructor
      · rw [collapseWS, if_pos h]
        simp only [Bool.false_eq_true, if_false]
        rw [iht hhead, hsp]
      · intro habs
        rw [List.headD_cons, h] at habs
        cases habs
    · constructor
      · rw [collapseWS, if_neg h, ihf]
      · intro _
        rw [collapseWS, if_neg h, ihf]

lemma stripBrackets_idem (t : List Char) :
    stripBracketsFromIngredients (stripBracketsFromIngredients t)
      = stripBracketsFromIngredients t := by
  rw [stripBracketsFromIngredients, stripBracketsFromIngredients]
  have hall : allWSisSpace (trim (collapseWS false t)) = true := by
    obtain ⟨ws1, ws2, h1, h2, hdec⟩ := trim_decomp (collapseWS false t)
    have hm := collapseWS_allWSisSpace t false
    rw [hdec] at hm
    simp only [allWSisSpace, List.all_append, Bool.and_eq_true] at hm
    exact hm.1.2
  have hno : noAdjWS (trim (collapseWS false t)) = true := by
    obtain ⟨ws1, ws2, h1, h2, hdec⟩ := trim_decomp (collapseWS false t)
    have hm := (collapseWS_noAdj t).1
    rw [hdec] at hm
    rw [List.append_assoc] at hm
    exact noAdjWS_append_left _ _ (noAdjWS_append_right ws1 _ hm)
  rw [(collapseWS_id_of_canon _ hall hno).1, trim_idem]

/-- C9: rendering is deterministic and pure: the three representations
are functions of the label value alone (the embedding carries no state,
mirroring the sources, which read their argument and build local
strings), so two renderings of the same unchanged label are byte
identical in storage text, rich markup and plain text; moreover the
storage-text normalization is idempotent, so repeated rendering of a
stored label keeps its text fixed. -/
theorem spec_c9_render_deterministic :
    (∀ l1 l2 : Label, l1 = l2 → renderLabel l1 = renderLabel l2) ∧
    (∀ t : List Char, stripBracketsFromIngredients (stripBracketsFromIngredients t)
      = stripBracketsFromIngredients t) :=
  ⟨fun _ _ h => by rw [h], stripBrackets_idem⟩

/-- C9 witness: two renderings of the sample label coincide. -/
theorem spec_c9_render_deterministic_witness :
    renderLabel sampleLabel = renderLabel sampleLabel :=
  spec_c9_render_deterministic.1 sampleLabel sampleLabel rfl

/-! Lemmas about character counts under escaping and upper-casing. -/

lemma escapeHtml_cons (c : Char) (r : List Char) :
    escapeHtml (c :: r) = escChar c ++ escapeHtml r := rfl

lemma countB_cons (p : Char → Bool) (c : Char) (r : List Char) :
    countB p (c :: r) = (if p c = true then 1 else 0) + countB p r := rfl

lemma countB_append (p : Char → Bool) : ∀ a b : List Char,
    countB p (a ++ b) = countB p a + countB p b := by
  intro a
  induction a with
  | nil =>
    intro b
    simp [countB]
  | cons c r ih =>
    intro b
    rw [List.cons_append, countB_cons, countB_cons, ih]
    omega

lemma countB_singleton (p : Char → Bool) (c : Char) :
    countB p [c] = if p c = true then 1 else 0 := by
  rw [countB_cons]
  simp [countB]

lemma countB_escChar_paren (c : Char) :
    countB (fun x => x == ')') (escChar c) = countB (fun x => x == ')') [c] := by
  rw [escChar]
  by_cases h1 : c = '&'
  · subst h1
    decide
  · rw [if_neg h1]
    by_cases h2 : c = '<'
    · subst h2
      decide
    · rw [if_neg h2]
      by_cases h3 : c = '>'
      · subst h3
        decide
      · rw [if_neg h3]

lemma countB_escChar_semi (c : Char) :
    countB (fun x => x == ';') (escChar c)
      = countB (fun x => x == ';') [c] + (if isEscCh c = true then 1 else 0) := by
  rw [escChar]
  by_cases h1 : c = '&'
  · subst h1
    decide
  · rw [if_neg h1]
    by_cases h2 : c = '<'
    · subst h2
      decide
    · rw [if_neg h2]
      by_cases h3 : c = '>'
      · subst h3
        decide
      · rw [if_neg h3, show isEscCh c = false from by simp [isEscCh, h1, h2, h3]]
        simp

lemma countB_escapeHtml_paren (u : List Char) :
    countB (fun x => x == ')') (escapeHtml u) = countB (fun x => x == ')') u := by
  induction u with
  | nil => rfl
  | cons c r ih =>
    rw [escapeHtml_cons, countB_append, countB_escChar_paren, ih]
    simp [countB]

lemma countB_escapeHtml_semi (u : List Char) :
    countB (fun x => x == ';') (escapeHtml u)
      = countB (fun x => x == ';') u + countB isEscCh u := by
  induction u with
  | nil => rfl
  | cons c r ih =>
    rw [escapeHtml_cons, countB_append, countB_escChar_semi, ih]
    simp only [countB]
    omega

lemma toUpper_beq_eq {a : Char} (ha : a.toNat < 65) (c : Char) :
    (Char.toUpper c == a) = (c == a) := by
  have hiff := toUpper_eq_low_iff ha c
  by_cases h : c = a
  · subst h
    simp [hiff.mpr rfl]
  · have hne : Char.toUpper c ≠ a := fun hc => h (hiff.mp hc)
    simp [h, hne]

lemma countB_upperStr (p : Char → Bool) (hp : ∀ c, p (Char.toUpper c) = p c) :
    ∀ l : List Char, countB p (upperStr l) = countB p l := by
  intro l
  induction l with
  | nil => rfl
  | cons c r ih =>
    rw [show upperStr (c :: r) = Char.toUpper c :: upperStr r from rfl,
      countB_cons, countB_cons, hp c, ih]

lemma isEscCh_toUpper (c : Char) : isEscCh (Char.toUpper c) = isEscCh c := by
  rw [isEscCh, isEscCh, toUpper_beq_eq (by decide) c, toUpper_beq_eq (by decide) c,
    toUpper_beq_eq (by decide) c]

lemma escapeHtml_eq_self : ∀ {u : List Char},
    (∀ c ∈ u, isEscCh c = false) → escapeHtml u = u := by
  intro u
  induction u with
  | nil => intro _; rfl
  | cons c r ih =>
    intro h
    have hc := h c (by simp)
    simp only [isEscCh, Bool.or_eq_false_iff, beq_eq_false_iff_ne] at hc
    rw [escapeHtml_cons, ih (fun x hx => h x (by simp [hx])), escChar,
      if_neg hc.1.1, if_neg hc.1.2, if_neg hc.2]
    rfl

lemma countB_pos_of_mem {p : Char → Bool} {c : Char} : ∀ {l : List Char},
    c ∈ l → p c = true → 0 < countB p l := by
  intro l
  induction l with
  | nil => intro hc _; cases hc
  | cons x xs ih =>
    intro hc hp
    rcases List.mem_cons.mp hc with rfl | h'
    · rw [countB_cons, if_pos hp]
      omega
    · have := ih h' hp
      rw [countB_cons]
      omega

lemma mem_joinSep {sep : List Char} : ∀ {items : List (List Char)} {a : List Char},
    a ∈ items → ∀ {c : Char}, c ∈ a → c ∈ joinSep sep items := by
  intro items
  induction items with
  | nil =>
    intro a ha
    cases ha
  | cons x xs ih =>
    intro a ha c hc
    cases xs with
    | nil =>
      rw [List.mem_singleton] at ha
      subst ha
      simpa [joinSep] using hc
    | cons y ys =>
      rw [joinSep]
      rcases List.mem_cons.mp ha with rfl | ha'
      · exact List.mem_append.mpr (Or.inl (List.mem_append.mpr (Or.inl hc)))
      · exact List.mem_append.mpr (Or.inr (ih ha' hc))

/-- C10: for every label with at least one allergen, the plain-text
allergen line is the CONTAINS label followed by the allergens joined with
a comma and a space, not upper-cased, with the allergen details appended
in parentheses when non-empty, whereas the rich-markup allergen line
upper-cases the joined allergens, escapes them, and never includes the
details; consequently the two lines differ whenever some allergen name
contains a lower-case ASCII letter or the details are non-empty. -/
theorem spec_c10_allergen_divergence (l : Label)
    (h : (∃ a ∈ l.allergens, a.any (fun c => 97 ≤ c.toNat && c.toNat ≤ 122) = true) ∨
      l.allergenDetails ≠ []) :
    plainAllergenLine l ≠ richAllergenText l := by
  intro heq
  rw [plainAllergenLine, richAllergenText, List.append_assoc] at heq
  have hkey := List.append_cancel_left heq
  by_cases hd : l.allergenDetails.isEmpty = true
  · rw [if_pos hd, List.append_nil] at hkey
    have hlow : ∃ ch ∈ joinSep ", ".toList l.allergens,
        97 ≤ ch.toNat ∧ ch.toNat ≤ 122 := by
      rcases h with ⟨a, ha, hany⟩ | hdet
      · rw [List.any_eq_true] at hany
        obtain ⟨ch, hch, hp⟩ := hany
        simp only [Bool.and_eq_true, decide_eq_true_eq] at hp
        exact ⟨ch, mem_joinSep ha hch, hp⟩
      · exact absurd (List.isEmpty_iff.mp hd) hdet
    obtain ⟨ch, hchmem, hch1, hch2⟩ := hlow
    by_cases hesc : ∀ c ∈ joinSep ", ".toList l.allergens, isEscCh c = false
    · have hup : ∀ c ∈ upperStr (joinSep ", ".toList l.allergens), isEscCh c = false := by
        intro c hc
        rw [upperStr] at hc
        obtain ⟨c', hc', rfl⟩ := List.mem_map.mp hc
        rw [isEscCh_toUpper]
        exact hesc c' hc'
      rw [escapeHtml_eq_self hup] at hkey
      have hfix : ∀ c ∈ joinSep ", ".toList l.allergens, Char.toUpper c = c :=
        (map_eq_self_iff_forall Char.toUpper _).mp hkey.symm
      exact toUpper_ne_self_of_lower hch1 hch2 (hfix ch hchmem)
    · push_neg at hesc
      obtain ⟨c0, hc0mem, hc0⟩ := hesc
      have hc0' : isEscCh c0 = true := by
        cases hh : isEscCh c0
        · exact absurd hh hc0
        · rfl
      have hcount := congrArg (countB (fun x => x == ';')) hkey
      rw [countB_escapeHtml_semi,
        countB_upperStr _ (fun c => toUpper_beq_eq (by decide) c),
        countB_upperStr isEscCh isEscCh_toUpper] at hcount
      have hpos := countB_pos_of_mem hc0mem hc0'
      omega
  · rw [if_neg hd] at hkey
    have hcount := congrArg (countB (fun x => x == ')')) hkey
    simp only [countB_append] at hcount
    rw [countB_escapeHtml_paren,
      countB_upperStr _ (fun c => toUpper_beq_eq (by decide) c)] at hcount
    have e1 : countB (fun x => x == ')') " (".toList = 0 := by decide
    have e2 : countB (fun x => x == ')') [')'] = 1 := by decide
    rw [e1, e2] at hcount
    omega

/-- C10 witness: the sample label has the lower-case allergen Milk and
its plain and rich allergen lines differ. -/
theorem spec_c10_allergen_divergence_witness :
    plainAllergenLine sampleLabel ≠ richAllergenText sampleLabel :=
  spec_c10_allergen_divergence sampleLabel (Or.inl (by decide))

end CustomLabel
